import Mathlib

/-!
Verification of the delegate pallet (bonded hierarchical delegation trees).

The definitions below are a shallow embedding of `src/pallet/src/lib.rs`:
* `TreeState` mirrors the Rust `TreeState` struct (u32 fields as `Nat`,
  with explicit wrapping `% 2^32` where the source performs u32 arithmetic
  that can wrap in release builds);
* the two storage maps `Trees` and `Members` are association lists;
* balances (`u64` in the test runtimes) live in an external reservable
  currency collaborator, modelled by `reserve`/`unreserve` on per-account
  `free`/`reserved` fields; arithmetic performed by the module itself on
  balance values wraps modulo `2^64` as Rust release-mode `u64` does;
* the five dispatchables `create_root`, `delegate`, `add_members`,
  `remove_members`, `revoke` and the helpers `gen_uid`,
  `reserve_linear_bond`, `reserve_exponential_bond`, `add_mems`,
  `remove_mems` follow the source line by line.

The recursive teardown `remove_mems` is given a fuel parameter (a bound on
recursion depth) because Lean requires a termination argument; exhausting
the fuel yields the distinguished result `RmRes.fuelOut`.  The dispatch
entry points pass `s.trees.length + maxDepth + 2` fuel, which the theorems
below show is never exhausted on states satisfying the module's height
invariant, so the fuel is purely a modelling artifact.  The `todo!()`
reached by the `penalty = true` paths of the source is modelled by the
result `RmRes.panicked`.  `remove_mems` additionally returns the number of
(recursive) `remove_mems` invocations it performed; the source does not
count its calls, and the first component of the result is exactly the
source's state effect.
-/

namespace Deleg8

/-- Modulus of the Rust u32 type. -/
def W32 : Nat := 2 ^ 32

/-- Modulus of the Rust u64 type (the balance type of both test runtimes). -/
def W64 : Nat := 2 ^ 64

/-- Reduction of a u32 arithmetic result (release-mode wrapping). -/
def wrap32 (n : Nat) : Nat := n % W32

/-- Wrapping u32 subtraction `a - b` for `a b < 2^32` (release-mode semantics
of `tp.kids - 1` and `tree.size -= size_decrease` in the source). -/
def sub32 (a b : Nat) : Nat := (a + W32 - b) % W32

/-- Wrapping u64 addition (release-mode semantics of `total + bond`). -/
def add64 (a b : Nat) : Nat := (a + b) % W64

/-- Wrapping u64 multiplication (release-mode semantics of `a * *b` and of
`T::Bond::get() * new_size.into()`). -/
def mul64 (a b : Nat) : Nat := (a * b) % W64

/-- The Rust `TreeState` struct. -/
structure TreeState where
  id : Nat
  parent : Option Nat
  bonded : Nat
  height : Nat
  kids : Nat
  size : Nat
deriving DecidableEq, Repr

/-- Free and reserved balance of one account, held by the external
reservable-currency collaborator. -/
structure AccountData where
  free : Nat
  reserved : Nat
deriving DecidableEq, Repr

/-- Module-level configuration: `Bond`, `MaxSize`, `MaxDepth`, `MaxKids`. -/
structure Cfg where
  bond : Nat
  maxSize : Nat
  maxDepth : Nat
  maxKids : Nat
deriving DecidableEq, Repr

/-- The whole storage state: the `TreeIdCounter` nonce, the `Trees` map,
the `Members` double map keyed by (tree id, account), and the external
balance table. -/
structure St where
  counter : Nat
  trees : List (Nat × TreeState)
  members : List ((Nat × Nat) × Nat)
  bals : List (Nat × AccountData)
deriving DecidableEq, Repr

/-- Point lookup in the `Trees` map. -/
def lookupT : List (Nat × TreeState) → Nat → Option TreeState
  | [], _ => none
  | (k, t) :: rest, key => if k = key then some t else lookupT rest key

/-- Insert into the `Trees` map: replace in place, else append. -/
def insertT : List (Nat × TreeState) → Nat → TreeState → List (Nat × TreeState)
  | [], key, v => [(key, v)]
  | (k, t) :: rest, key, v =>
      if k = key then (key, v) :: rest else (k, t) :: insertT rest key v

/-- Point lookup in the `Members` double map. -/
def lookupM : List ((Nat × Nat) × Nat) → Nat × Nat → Option Nat
  | [], _ => none
  | (k, b) :: rest, key => if k = key then some b else lookupM rest key

/-- Insert into the `Members` double map: replace in place, else append. -/
def insertM : List ((Nat × Nat) × Nat) → Nat × Nat → Nat → List ((Nat × Nat) × Nat)
  | [], key, v => [(key, v)]
  | (k, b) :: rest, key, v =>
      if k = key then (key, v) :: rest else (k, b) :: insertM rest key v

/-- Remove a key from the `Members` double map. -/
def removeM : List ((Nat × Nat) × Nat) → Nat × Nat → List ((Nat × Nat) × Nat)
  | [], _ => []
  | (k, b) :: rest, key =>
      if k = key then removeM rest key else (k, b) :: removeM rest key

/-- The (account, bonded amount) pairs stored under one tree id: the
`Members::iter_prefix(tree.id)` iteration of the source. -/
def membersOf : List ((Nat × Nat) × Nat) → Nat → List (Nat × Nat)
  | [], _ => []
  | ((tid, a), b) :: rest, id =>
      if tid = id then (a, b) :: membersOf rest id else membersOf rest id

/-- Balance data of an account (zero if the account has no entry). -/
def getBal : List (Nat × AccountData) → Nat → AccountData
  | [], _ => ⟨0, 0⟩
  | (k, d) :: rest, a => if k = a then d else getBal rest a

/-- Update the balance data of an account. -/
def setBal : List (Nat × AccountData) → Nat → AccountData → List (Nat × AccountData)
  | [], a, d => [(a, d)]
  | (k, d0) :: rest, a, d =>
      if k = a then (a, d) :: rest else (k, d0) :: setBal rest a d

/-- The direct children of tree `id` in the registry: the trees visited by
`Trees::iter()` whose `parent` equals `Some(id)`. -/
def childrenOf : List (Nat × TreeState) → Nat → List (Nat × TreeState)
  | [], _ => []
  | (k, t) :: rest, id =>
      if t.parent = some id then (k, t) :: childrenOf rest id
      else childrenOf rest id

/-- `ReservableCurrency::reserve`: move `amt` from free to reserved, or fail
(`InsufficientBalance`) leaving the state untouched. -/
def reserve (account amt : Nat) (s : St) : Option St :=
  let d := getBal s.bals account
  if amt ≤ d.free then
    some { s with bals := setBal s.bals account ⟨d.free - amt, d.reserved + amt⟩ }
  else none

/-- `ReservableCurrency::unreserve`: move `min amt reserved` back to free. -/
def unreserve (account amt : Nat) (s : St) : St :=
  let d := getBal s.bals account
  let rel := min amt d.reserved
  { s with bals := setBal s.bals account ⟨d.free + rel, d.reserved - rel⟩ }

/-- The scan of `gen_uid`: advance from `cnt` while the id is occupied.
The fuel bounds the scan; `s.trees.length + 1` steps always reach a free
id when the registry's keys are distinct. -/
def gen_uid_go : Nat → Nat → List (Nat × TreeState) → Nat
  | 0, cnt, _ => cnt
  | fuel + 1, cnt, ts =>
      match lookupT ts cnt with
      | some _ => gen_uid_go fuel (cnt + 1) ts
      | none => cnt

/-- `Module::gen_uid`: smallest unoccupied id at or above the stored counter
(the counter is read but never written back, exactly as in the source). -/
def gen_uid (s : St) : Nat := gen_uid_go (s.trees.length + 1) s.counter s.trees

/-- Tail of Rust `Vec::dedup`: drop elements equal to the previously kept
element `prev`. -/
def dedupFrom : Nat → List Nat → List Nat
  | _, [] => []
  | prev, x :: rest =>
      if x = prev then dedupFrom prev rest else x :: dedupFrom x rest

/-- Rust `Vec::dedup`: remove *consecutive* repeated elements. -/
def dedup : List Nat → List Nat
  | [] => []
  | x :: rest => x :: dedupFrom x rest

/-- The exponentiation closure of `reserve_exponential_bond`:
`vec![n; exp].iter().fold(zero + 1, |a, b| a * *b)` with wrapping u64
multiplication. -/
def power (n exp : Nat) : Nat :=
  (List.replicate exp n).foldl (fun a b => mul64 a b) 1

/-- `Module::reserve_linear_bond`: reserve `Bond * new_size` from `account`
and accumulate it into the (tree, account) membership entry.  Returns the
bond and the new state, or `none` for `InsufficientBalance`. -/
def reserve_linear_bond (c : Cfg) (tree account new_size : Nat) (s : St) :
    Option (Nat × St) :=
  let bond := mul64 c.bond new_size
  match reserve account bond s with
  | none => none
  | some s1 =>
      let b := match lookupM s1.members (tree, account) with
        | some total => add64 total bond
        | none => bond
      some (bond, { s1 with members := insertM s1.members (tree, account) b })

/-- `Module::reserve_exponential_bond`: reserve `Bond ^ (height + kids)`
from `account` and accumulate it into the (tree, account) membership entry;
note that `tree` is the *parent* tree at the call site in `delegate`. -/
def reserve_exponential_bond (c : Cfg) (tree account height kids : Nat) (s : St) :
    Option (Nat × St) :=
  let exp := wrap32 (height + kids)
  let bond := power c.bond exp
  match reserve account bond s with
  | none => none
  | some s1 =>
      let b := match lookupM s1.members (tree, account) with
        | some total => add64 total bond
        | none => bond
      some (bond, { s1 with members := insertM s1.members (tree, account) b })

/-- The member-insertion loop of `Module::add_mems`: insert each listed
account that has no entry yet with a zero bonded balance, counting the
genuinely new insertions. -/
def add_mems_go (tid : Nat) : List Nat → St → Nat → St × Nat
  | [], s, inc => (s, inc)
  | m :: rest, s, inc =>
      match lookupM s.members (tid, m) with
      | some _ => add_mems_go tid rest s inc
      | none =>
          add_mems_go tid rest
            { s with members := insertM s.members (tid, m) 0 } (inc + 1)

/-- `Module::add_mems`: dedup (consecutive duplicates only), insert new
members, then store the tree with its size increased by the count of
actual insertions. -/
def add_mems (tree : TreeState) (mems : List Nat) (s : St) : St :=
  let ms := dedup mems
  let r := add_mems_go tree.id ms s 0
  { r.1 with trees :=
      insertT r.1.trees tree.id { tree with size := wrap32 (tree.size + r.2) } }

/-- Result of the (recursive) teardown helper: normal completion carrying
the state and the number of `remove_mems` invocations performed, a panic
(the `todo!()` of the `penalty = true` branches), or fuel exhaustion. -/
inductive RmRes
  | ok (s : St) (calls : Nat)
  | panicked
  | fuelOut
deriving DecidableEq, Repr

/-- The member-removal loop of the `Some(mems)` branch of
`Module::remove_mems`: for each listed account with an entry that is not
the bonded owner, unreserve its bond (then `todo!()` if `penalty`), remove
the entry, and count the removal. -/
def removeList (tid bonded : Nat) (penalty : Bool) :
    List Nat → St → Nat → Option (St × Nat)
  | [], s, dec => some (s, dec)
  | m :: rest, s, dec =>
      match lookupM s.members (tid, m) with
      | none => removeList tid bonded penalty rest s dec
      | some bond =>
          if bonded ≠ m then
            let s1 := unreserve m bond s
            if penalty then none
            else
              removeList tid bonded penalty rest
                { s1 with members := removeM s1.members (tid, m) } (dec + 1)
          else removeList tid bonded penalty rest s dec

/-- The `Members::iter_prefix` loop of the `None` branch of
`Module::remove_mems`: unreserve every entry of the tree (then `todo!()`
if `penalty`) and remove it. -/
def releaseAll (tid : Nat) (penalty : Bool) : List (Nat × Nat) → St → Option St
  | [], s => some s
  | (a, b) :: rest, s =>
      let s1 := unreserve a b s
      if penalty then none
      else releaseAll tid penalty rest
        { s1 with members := removeM s1.members (tid, a) }

/-- The loop over the direct children found by the registry scan; `f` is
the recursive teardown call at the next fuel level.  Accumulates the
total invocation count of the child teardowns. -/
def goKids (f : TreeState → St → RmRes) : List (Nat × TreeState) → St → RmRes
  | [], s => .ok s 0
  | (_, child) :: rest, s =>
      match f child s with
      | .ok s1 n1 =>
          match goKids f rest s1 with
          | .ok s2 n2 => .ok s2 (n1 + n2)
          | r => r
      | r => r

/-- The `None` (full teardown) branch of `Module::remove_mems`: release
every membership entry of the tree, decrement the parent's `kids` (if
any), and recurse into every registry tree whose `parent` is this tree's
id.  The returned count is the number of teardown invocations performed
(this one plus the recursive ones). -/
def teardown (c : Cfg) (penalty : Bool) : Nat → TreeState → St → RmRes
  | 0, _, _ => .fuelOut
  | fuel + 1, tree, s =>
      match releaseAll tree.id penalty (membersOf s.members tree.id) s with
      | none => .panicked
      | some s1 =>
          let s2 :=
            match tree.parent with
            | some p =>
                match lookupT s1.trees p with
                | some tp =>
                    let tp2 : TreeState := { tp with kids := sub32 tp.kids 1 }
                    { s1 with trees := insertT s1.trees p tp2 }
                | none => s1
            | none => s1
          match goKids (fun t u => teardown c penalty fuel t u)
              (childrenOf s2.trees tree.id) s2 with
          | .ok s3 n => .ok s3 (n + 1)
          | r => r

/-- `Module::remove_mems`.  `Some mems` removes the listed members and
stores the decreased size; `none` performs the full recursive teardown. -/
def remove_mems (c : Cfg) : Nat → TreeState → Option (List Nat) → Bool → St → RmRes
  | 0, _, _, _, _ => .fuelOut
  | _ + 1, tree, some mems, penalty, s =>
      match removeList tree.id tree.bonded penalty (dedup mems) s 0 with
      | none => .panicked
      | some (s1, dec) =>
          let t2 : TreeState := { tree with size := sub32 tree.size dec }
          .ok { s1 with trees := insertT s1.trees tree.id t2 } 1
  | fuel + 1, tree, none, penalty, s => teardown c penalty (fuel + 1) tree s

/-- The dispatch errors of the module (plus the currency error). -/
inductive Err
  | TreeDNE
  | NotAuthorized
  | CannotAddGroupAboveMaxSize
  | CannotDelegateBelowMaxDepth
  | CannotDelegateAboveMaxKids
  | InsufficientBalance
deriving DecidableEq, Repr

/-- Result of a dispatchable: success, a dispatch error together with the
observable state at the point of the error, a panic, or fuel exhaustion of
the modelled recursion. -/
inductive OpRes
  | ok (s : St)
  | fail (e : Err) (s : St)
  | panicked
  | fuelOut
deriving DecidableEq, Repr

/-- Fuel handed to the teardown recursion by the dispatch entry points:
large enough that the theorems below show it is never exhausted on states
satisfying the height invariant. -/
def teardownFuel (c : Cfg) (s : St) : Nat := s.trees.length + c.maxDepth + 2

/-- The `create_root` dispatchable. -/
def create_root (c : Cfg) (caller : Nat) (s : St) : OpRes :=
  let bond := c.bond
  match reserve caller bond s with
  | none => .fail .InsufficientBalance s
  | some s1 =>
      let id := gen_uid s1
      let state : TreeState := ⟨id, none, caller, 0, 0, 1⟩
      let s2 := { s1 with trees := insertT s1.trees id state }
      .ok { s2 with members := insertM s2.members (id, caller) bond }

/-- The `delegate` dispatchable. -/
def delegate (c : Cfg) (caller parent : Nat) (members : List Nat) (s : St) : OpRes :=
  match lookupM s.members (parent, caller) with
  | none => .fail .NotAuthorized s
  | some _ =>
      match lookupT s.trees parent with
      | none => .fail .TreeDNE s
      | some parent_st =>
          let new_kids := wrap32 (parent_st.kids + 1)
          let new_height := wrap32 (parent_st.height + 1)
          if new_kids ≤ c.maxKids then
            if new_height ≤ c.maxDepth then
              match reserve_exponential_bond c parent caller new_height new_kids s with
              | none => .fail .InsufficientBalance s
              | some (_, s1) =>
                  let id := gen_uid s1
                  let state : TreeState := ⟨id, some parent_st.id, caller, new_height, 0, 0⟩
                  let s2 := add_mems state members s1
                  .ok { s2 with trees :=
                          insertT s2.trees parent { parent_st with kids := new_kids } }
            else .fail .CannotDelegateBelowMaxDepth s
          else .fail .CannotDelegateAboveMaxKids s

/-- The authorization test shared by `add_members` and `remove_members`:
member of the direct parent, or bonded owner for a root. -/
def parentAuth (caller : Nat) (tree : TreeState) (s : St) : Bool :=
  match tree.parent with
  | some p => (lookupM s.members (p, caller)).isSome
  | none => decide (tree.bonded = caller)

/-- The `add_members` dispatchable. -/
def add_members (c : Cfg) (caller tree_id : Nat) (members : List Nat) (s : St) : OpRes :=
  match lookupT s.trees tree_id with
  | none => .fail .TreeDNE s
  | some tree =>
      if parentAuth caller tree s then
        let mems := dedup members
        let new_size := wrap32 (wrap32 mems.length + tree.size)
        if new_size ≤ c.maxSize then
          match reserve_linear_bond c tree_id caller new_size s with
          | none => .fail .InsufficientBalance s
          | some (_, s1) => .ok (add_mems tree mems s1)
        else .fail .CannotAddGroupAboveMaxSize s
      else .fail .NotAuthorized s

/-- The `remove_members` dispatchable. -/
def remove_members (c : Cfg) (caller tree_id : Nat) (members : List Nat)
    (penalty : Bool) (s : St) : OpRes :=
  match lookupT s.trees tree_id with
  | none => .fail .TreeDNE s
  | some tree =>
      if parentAuth caller tree s then
        match remove_mems c (teardownFuel c s) tree (some members) penalty s with
        | .ok s1 _ => .ok s1
        | .panicked => .panicked
        | .fuelOut => .fuelOut
      else .fail .NotAuthorized s

/-- The `revoke` dispatchable. -/
def revoke (c : Cfg) (caller branch : Nat) (penalty : Bool) (s : St) : OpRes :=
  match lookupT s.trees branch with
  | none => .fail .TreeDNE s
  | some tree =>
      if tree.bonded = caller then
        match remove_mems c (teardownFuel c s) tree none penalty s with
        | .ok s1 _ => .ok s1
        | .panicked => .panicked
        | .fuelOut => .fuelOut
      else .fail .NotAuthorized s

/-! Static skeleton of the registry: the per-tree data that no operation of
the module ever mutates once a tree is inserted (key, stored id, parent
link, height).  The teardown analysis is phrased over this skeleton. -/

/-- One skeleton node of the `Trees` map. -/
structure SNode where
  key : Nat
  tid : Nat
  parent : Option Nat
  height : Nat
deriving DecidableEq, Repr

/-- Skeleton of a registry. -/
def skel (ts : List (Nat × TreeState)) : List SNode :=
  ts.map fun kt => ⟨kt.1, kt.2.id, kt.2.parent, kt.2.height⟩

/-- Every stored tree records its own key as its id. -/
def IdsOk (sk : List SNode) : Prop := ∀ e ∈ sk, e.tid = e.key

/-- The registry keys are pairwise distinct. -/
def KeysNodup (sk : List SNode) : Prop := (sk.map SNode.key).Nodup

/-- Parent-height coherence: every non-root's parent is stored and the
child's height is the parent's height plus one. -/
def ParentsOk (sk : List SNode) : Prop :=
  ∀ e ∈ sk, ∀ p, e.parent = some p →
    ∃ e', e' ∈ sk ∧ e'.key = p ∧ e.height = e'.height + 1

/-- All stored heights are bounded by `d`. -/
def HeightsLe (sk : List SNode) (d : Nat) : Prop :=
  ∀ e ∈ sk, e.height ≤ d

/-- Number of direct children of key `k` recorded in the skeleton. -/
def childCount (sk : List SNode) (k : Nat) : Nat :=
  (sk.filter fun e => e.parent = some k).length

/-- Branching bound: every stored tree has at most `k` direct children in
the registry. -/
def KidsLe (sk : List SNode) (k : Nat) : Prop :=
  ∀ e ∈ sk, childCount sk e.key ≤ k

/-- Well-formed forest shape with heights bounded by `d`. -/
def Forest (sk : List SNode) (d : Nat) : Prop :=
  IdsOk sk ∧ KeysNodup sk ∧ ParentsOk sk ∧ HeightsLe sk d

/-- `IsDesc sk p d` holds when tree `d` is a strict descendant of tree `p`
through the stored parent links. -/
inductive IsDesc (sk : List SNode) : Nat → Nat → Prop
  | child (e : SNode) (p : Nat) : e ∈ sk → e.parent = some p → IsDesc sk p e.key
  | tail (e : SNode) (p q : Nat) :
      IsDesc sk p q → e ∈ sk → e.parent = some q → IsDesc sk p e.key

/-- Sum of the geometric series: `geom k n = 1 + k + k^2 + ... + k^n`. -/
def geom (k : Nat) : Nat → Nat
  | 0 => 1
  | n + 1 => 1 + k * geom k n

/-- Projection used for the concrete executions below: the state carried by
a normal or failed dispatch result. -/
def outState (r : OpRes) : St :=
  match r with
  | .ok s => s
  | .fail _ s => s
  | _ => ⟨0, [], [], []⟩

/-! Concrete configurations and executions used by the witnesses and
counterexamples.  `cfg2` mirrors the v2 test runtime (`Bond = 2`) with
`MaxKids = 2`; `cfgK` is a minimal configuration with
`MaxDepth = MaxKids = 1`; `cfgM` has `MaxDepth = 2`, `MaxKids = 1`. -/

/-- Test-style configuration: Bond 2, MaxSize 5, MaxDepth 3, MaxKids 2. -/
def cfg2 : Cfg := ⟨2, 5, 3, 2⟩

/-- Minimal configuration: Bond 2, MaxSize 5, MaxDepth 1, MaxKids 1. -/
def cfgK : Cfg := ⟨2, 5, 1, 1⟩

/-- Configuration with MaxDepth 2, MaxKids 1. -/
def cfgM : Cfg := ⟨2, 5, 2, 1⟩

/-- Initial state: account 1 holds 1000 free. -/
def st0 : St := ⟨0, [], [], [(1, ⟨1000, 0⟩)]⟩

/-- Initial state for the funding-boundary run: account 1 holds 12 free. -/
def stM0 : St := ⟨0, [], [], [(1, ⟨12, 0⟩)]⟩

/-- A state holding a membership entry (tree 7, account 1) with no tree 7. -/
def stD : St := ⟨0, [], [((7, 1), 1)], []⟩

/-- After `create_root cfg2 1 st0`: root tree 0 owned by account 1. -/
def exA1 : St := outState (create_root cfg2 1 st0)

/-- After `delegate cfg2 1 0 [2] exA1`: child tree 1 with member 2. -/
def exA2 : St := outState (delegate cfg2 1 0 [2] exA1)

/-- After `revoke cfg2 1 0 false exA1`. -/
def exB2 : St := outState (revoke cfg2 1 0 false exA1)

/-- After `delegate cfg2 1 0 [] exA1`: child tree 1 with no members. -/
def exD2 : St := outState (delegate cfg2 1 0 [] exA1)

/-- After `add_members cfg2 1 1 [2] exD2`: caller 1 gains an uncounted
ledger entry for tree 1. -/
def exD3 : St := outState (add_members cfg2 1 1 [2] exD2)

/-- After `revoke cfg2 1 1 false exD2`: tree 1 is a residual record. -/
def exH3 : St := outState (revoke cfg2 1 1 false exD2)

/-- After a second `revoke cfg2 1 1 false exH3`: the root's kids count has
wrapped around. -/
def exH4 : St := outState (revoke cfg2 1 1 false exH3)

/-- After `add_members cfg2 1 0 [2] exA1`: member 2 in the root tree. -/
def exG1 : St := outState (add_members cfg2 1 0 [2] exA1)

/-- After `add_members cfg2 1 0 [2,3,4,5] exA1`: the successful v2-test
call, filling the root to `MaxSize`. -/
def exG2 : St := outState (add_members cfg2 1 0 [2, 3, 4, 5] exA1)

/-- After `create_root cfgK 1 st0`. -/
def exK1 : St := outState (create_root cfgK 1 st0)

/-- After `delegate cfgK 1 0 [] exK1`: a root with one child at the depth
limit `MaxDepth = 1`. -/
def exK2 : St := outState (delegate cfgK 1 0 [] exK1)

/-- After `delegate cfgK 1 0 [1] exK1`: the child tree 1 carries a
membership entry for account 1. -/
def exK2m : St := outState (delegate cfgK 1 0 [1] exK1)

/-- After `create_root cfgM 1 stM0`. -/
def exM1 : St := outState (create_root cfgM 1 stM0)

/-- After `delegate cfgM 1 0 [1] exM1`: child tree 1 at height
`MaxDepth - 1` whose ledger lists account 1, with account 1 left too poor
to fund a further delegation. -/
def exM2 : St := outState (delegate cfgM 1 0 [1] exM1)

/-- After `revoke cfgK 1 0 false exK2`: teardown of the two-tree forest. -/
def exK3 : St := outState (revoke cfgK 1 0 false exK2)

/-- One successful dispatch of the module (failed dispatches return the
unchanged state, so they are irrelevant to reachability). -/
inductive Step (c : Cfg) : St → St → Prop
  | create (caller : Nat) (s s' : St) :
      create_root c caller s = .ok s' → Step c s s'
  | deleg (caller pid : Nat) (mems : List Nat) (s s' : St) :
      delegate c caller pid mems s = .ok s' → Step c s s'
  | addm (caller tid : Nat) (mems : List Nat) (s s' : St) :
      add_members c caller tid mems s = .ok s' → Step c s s'
  | remm (caller tid : Nat) (mems : List Nat) (penalty : Bool) (s s' : St) :
      remove_members c caller tid mems penalty s = .ok s' → Step c s s'
  | rev (caller tid : Nat) (penalty : Bool) (s s' : St) :
      revoke c caller tid penalty s = .ok s' → Step c s s'

/-- States reachable from a genesis state (empty registry and ledger,
arbitrary balances) through successful dispatches. -/
inductive Reachable (c : Cfg) : St → Prop
  | init (bals : List (Nat × AccountData)) : Reachable c ⟨0, [], [], bals⟩
  | step (s s' : St) : Reachable c s → Step c s s' → Reachable c s'

/-! Theorems.  First, basic lemmas about the storage primitives. -/

theorem lookupM_insertM_self (l : List ((Nat × Nat) × Nat)) (key : Nat × Nat) (v : Nat) :
    lookupM (insertM l key v) key = some v := by
  induction l with
  | nil => simp [insertM, lookupM]
  | cons kb rest ih =>
      obtain ⟨k, b⟩ := kb
      by_cases h : k = key
      · simp [insertM, lookupM, h]
      · simp [insertM, lookupM, h, ih]

theorem lookupM_insertM_other (l : List ((Nat × Nat) × Nat)) (key key' : Nat × Nat) (v : Nat)
    (h : key' ≠ key) : lookupM (insertM l key v) key' = lookupM l key' := by
  induction l with
  | nil =>
      simp only [insertM, lookupM]
      rw [if_neg (fun hh => h hh.symm)]
  | cons kb rest ih =>
      obtain ⟨k, b⟩ := kb
      simp only [insertM]
      by_cases hk : k = key
      · rw [if_pos hk]
        simp only [lookupM]
        rw [if_neg (fun hh => h hh.symm), if_neg (by rw [hk]; exact fun hh => h hh.symm)]
      · rw [if_neg hk]
        simp only [lookupM]
        by_cases hk' : k = key'
        · rw [if_pos hk', if_pos hk']
        · rw [if_neg hk', if_neg hk', ih]

theorem reserve_parts (a amt : Nat) (s s1 : St) (h : reserve a amt s = some s1) :
    s1.members = s.members ∧ s1.trees = s.trees ∧ s1.counter = s.counter := by
  rw [reserve] at h
  by_cases hle : amt ≤ (getBal s.bals a).free
  · rw [if_pos hle] at h
    cases h
    exact ⟨rfl, rfl, rfl⟩
  · rw [if_neg hle] at h
    cases h

theorem add_mems_go_preserves (tid : Nat) (l : List Nat) (s : St) (acc : Nat)
    (key : Nat × Nat) (v : Nat) (h : lookupM s.members key = some v) :
    lookupM (add_mems_go tid l s acc).1.members key = some v := by
  induction l generalizing s acc with
  | nil => simpa [add_mems_go] using h
  | cons m rest ih =>
      cases hm : lookupM s.members (tid, m) with
      | some b => simpa [add_mems_go, hm] using ih s acc h
      | none =>
          have hne : key ≠ (tid, m) := by
            intro he
            rw [he] at h
            rw [h] at hm
            cases hm
          simp only [add_mems_go, hm]
          exact ih _ _ (by simpa [lookupM_insertM_other _ _ _ _ hne] using h)

theorem add_mems_preserves (tree : TreeState) (mems : List Nat) (s : St)
    (key : Nat × Nat) (v : Nat) (h : lookupM s.members key = some v) :
    lookupM (add_mems tree mems s).members key = some v := by
  simp only [add_mems]
  exact add_mems_go_preserves _ _ _ _ _ _ h

theorem lookupT_insertT_self (l : List (Nat × TreeState)) (key : Nat) (v : TreeState) :
    lookupT (insertT l key v) key = some v := by
  induction l with
  | nil => simp [insertT, lookupT]
  | cons kt rest ih =>
      obtain ⟨k, t⟩ := kt
      by_cases h : k = key
      · simp [insertT, lookupT, h]
      · simp [insertT, lookupT, h, ih]

theorem lookupT_insertT_other (l : List (Nat × TreeState)) (key key' : Nat) (v : TreeState)
    (h : key' ≠ key) : lookupT (insertT l key v) key' = lookupT l key' := by
  induction l with
  | nil =>
      simp only [insertT, lookupT]
      rw [if_neg (fun hh => h hh.symm)]
  | cons kt rest ih =>
      obtain ⟨k, t⟩ := kt
      simp only [insertT]
      by_cases hk : k = key
      · rw [if_pos hk]
        simp only [lookupT]
        rw [if_neg (fun hh => h hh.symm), if_neg (by rw [hk]; exact fun hh => h hh.symm)]
      · rw [if_neg hk]
        simp only [lookupT]
        by_cases hk' : k = key'
        · rw [if_pos hk', if_pos hk']
        · rw [if_neg hk', if_neg hk', ih]

theorem add_mems_go_trees (tid : Nat) (l : List Nat) (s : St) (acc : Nat) :
    (add_mems_go tid l s acc).1.trees = s.trees ∧
    (add_mems_go tid l s acc).1.bals = s.bals ∧
    (add_mems_go tid l s acc).1.counter = s.counter := by
  induction l generalizing s acc with
  | nil => simp [add_mems_go]
  | cons m rest ih =>
      cases hm : lookupM s.members (tid, m) with
      | some b => simpa [add_mems_go, hm] using ih s acc
      | none => simpa [add_mems_go, hm] using ih _ (acc + 1)

theorem add_mems_go_count_le (tid : Nat) (l : List Nat) (s : St) (acc : Nat) :
    (add_mems_go tid l s acc).2 ≤ acc + l.length := by
  induction l generalizing s acc with
  | nil => simp [add_mems_go]
  | cons m rest ih =>
      cases hm : lookupM s.members (tid, m) with
      | some b =>
          simp only [add_mems_go, hm]
          calc (add_mems_go tid rest s acc).2 ≤ acc + rest.length := ih s acc
          _ ≤ acc + (m :: rest).length := by simp
      | none =>
          simp only [add_mems_go, hm]
          calc (add_mems_go tid rest _ (acc + 1)).2 ≤ (acc + 1) + rest.length := ih _ _
          _ = acc + (m :: rest).length := by simp [Nat.add_comm, Nat.add_assoc, Nat.add_left_comm]

theorem add_mems_go_inserts_zero (tid : Nat) (l : List Nat) (s : St) (acc : Nat)
    (m : Nat) (hmem : m ∈ l) (habs : lookupM s.members (tid, m) = none) :
    lookupM (add_mems_go tid l s acc).1.members (tid, m) = some 0 := by
  induction l generalizing s acc with
  | nil => cases hmem
  | cons m' rest ih =>
      by_cases he : m' = m
      · subst he
        simp only [add_mems_go, habs]
        exact add_mems_go_preserves _ _ _ _ _ _ (lookupM_insertM_self _ _ _)
      · have hmem' : m ∈ rest := by
          cases hmem with
          | head => exact absurd rfl he
          | tail _ hh => exact hh
        cases hm' : lookupM s.members (tid, m') with
        | some b => simp only [add_mems_go, hm']; exact ih s acc hmem' habs
        | none =>
            simp only [add_mems_go, hm']
            refine ih _ (acc + 1) hmem' ?_
            rw [lookupM_insertM_other]
            · exact habs
            · intro hh
              exact he (Prod.mk.inj hh.symm).2

theorem lookupM_removeM (l : List ((Nat × Nat) × Nat)) (key key' : Nat × Nat) :
    lookupM (removeM l key) key' = if key' = key then none else lookupM l key' := by
  induction l with
  | nil => simp [removeM, lookupM]
  | cons kb rest ih =>
      obtain ⟨k, b⟩ := kb
      by_cases hk : k = key
      · have hkk : removeM ((k, b) :: rest) key = removeM rest key := by
          rw [removeM, if_pos hk]
        rw [hkk, ih]
        by_cases h' : key' = key
        · rw [if_pos h', if_pos h']
        · have hkk' : k ≠ key' := by rw [hk]; exact fun hh => h' hh.symm
          rw [if_neg h', if_neg h', lookupM, if_neg hkk']
      · have hkk : removeM ((k, b) :: rest) key = (k, b) :: removeM rest key := by
          rw [removeM, if_neg hk]
        rw [hkk, lookupM, ih]
        by_cases hk' : k = key'
        · have h' : key' ≠ key := by rw [← hk']; exact fun hh => hk hh
          rw [if_pos hk', if_neg h', lookupM, if_pos hk']
        · rw [if_neg hk']
          by_cases h' : key' = key
          · rw [if_pos h', if_pos h']
          · rw [if_neg h', if_neg h', lookupM, if_neg hk']

theorem getBal_setBal_self (l : List (Nat × AccountData)) (a : Nat) (d : AccountData) :
    getBal (setBal l a d) a = d := by
  induction l with
  | nil => simp [setBal, getBal]
  | cons kd rest ih =>
      obtain ⟨k, d0⟩ := kd
      by_cases h : k = a
      · simp [setBal, getBal, h]
      · simp [setBal, getBal, h, ih]

theorem getBal_setBal_other (l : List (Nat × AccountData)) (a a' : Nat) (d : AccountData)
    (h : a' ≠ a) : getBal (setBal l a d) a' = getBal l a' := by
  induction l with
  | nil =>
      simp only [setBal, getBal]
      rw [if_neg (fun hh => h hh.symm)]
  | cons kd rest ih =>
      obtain ⟨k, d0⟩ := kd
      simp only [setBal]
      by_cases hk : k = a
      · rw [if_pos hk]
        simp only [getBal]
        rw [if_neg (fun hh => h hh.symm), if_neg (by rw [hk]; exact fun hh => h hh.symm)]
      · rw [if_neg hk]
        simp only [getBal]
        by_cases hk' : k = a'
        · rw [if_pos hk', if_pos hk']
        · rw [if_neg hk', if_neg hk', ih]

theorem unreserve_spec (acct amt : Nat) (s : St) :
    (unreserve acct amt s).trees = s.trees ∧
    (unreserve acct amt s).members = s.members ∧
    (unreserve acct amt s).counter = s.counter ∧
    (∀ a, (getBal (unreserve acct amt s).bals a).free +
          (getBal (unreserve acct amt s).bals a).reserved =
        (getBal s.bals a).free + (getBal s.bals a).reserved ∧
      (getBal s.bals a).free ≤ (getBal (unreserve acct amt s).bals a).free ∧
      (getBal (unreserve acct amt s).bals a).reserved ≤ (getBal s.bals a).reserved) := by
  refine ⟨rfl, rfl, rfl, ?_⟩
  intro a
  by_cases h : a = acct
  · subst h
    simp only [unreserve, getBal_setBal_self]
    have hmin : min amt (getBal s.bals a).reserved ≤ (getBal s.bals a).reserved :=
      Nat.min_le_right _ _
    refine ⟨by omega, by omega, by omega⟩
  · have hh : getBal (unreserve acct amt s).bals a = getBal s.bals a :=
      getBal_setBal_other _ _ _ _ h
    rw [hh]
    exact ⟨rfl, Nat.le_refl _, Nat.le_refl _⟩

theorem lookup_mem_membersOf (l : List ((Nat × Nat) × Nat)) (tid a : Nat)
    (h : lookupM l (tid, a) ≠ none) : a ∈ (membersOf l tid).map Prod.fst := by
  induction l with
  | nil => simp [lookupM] at h
  | cons kb rest ih =>
      obtain ⟨⟨t', a'⟩, b⟩ := kb
      by_cases hk : (t', a') = (tid, a)
      · obtain ⟨ht, ha⟩ := Prod.mk.inj hk
        subst ht; subst ha
        simp [membersOf]
      · rw [lookupM, if_neg hk] at h
        by_cases ht : t' = tid
        · simp only [membersOf, if_pos ht, List.map_cons]
          exact List.mem_cons_of_mem _ (ih h)
        · simp only [membersOf, if_neg ht]
          exact ih h

theorem releaseAll_false_spec (tid : Nat) :
    ∀ (l : List (Nat × Nat)) (s : St),
      ∃ s', releaseAll tid false l s = some s' ∧
        s'.trees = s.trees ∧ s'.counter = s.counter ∧
        (∀ key, lookupM s'.members key =
          if key ∈ l.map (fun ab => (tid, ab.1)) then none else lookupM s.members key) ∧
        (∀ a, (getBal s'.bals a).free + (getBal s'.bals a).reserved =
            (getBal s.bals a).free + (getBal s.bals a).reserved ∧
          (getBal s.bals a).free ≤ (getBal s'.bals a).free ∧
          (getBal s'.bals a).reserved ≤ (getBal s.bals a).reserved) := by
  intro l
  induction l with
  | nil =>
      intro s
      exact ⟨s, rfl, rfl, rfl, fun key => by simp, fun a => ⟨rfl, Nat.le_refl _, Nat.le_refl _⟩⟩
  | cons ab rest ih =>
      intro s
      obtain ⟨a, b⟩ := ab
      set s1 := unreserve a b s with hs1
      obtain ⟨htr1, hm1, hc1, hb1⟩ := unreserve_spec a b s
      set s2 : St := { s1 with members := removeM s1.members (tid, a) } with hs2
      obtain ⟨s', hrel, htr, hc, hmem, hbal⟩ := ih s2
      refine ⟨s', ?_, ?_, ?_, ?_, ?_⟩
      · rw [releaseAll]
        simpa using hrel
      · rw [htr]
        exact htr1
      · rw [hc]
        exact hc1
      · intro key
        rw [hmem key]
        by_cases hin : key ∈ rest.map (fun ab => (tid, ab.1))
        · rw [if_pos hin, if_pos (by simp [hin])]
        · by_cases hhd : key = (tid, a)
          · rw [if_neg hin]
            have : lookupM s2.members key = none := by
              show lookupM (removeM s1.members (tid, a)) key = none
              rw [lookupM_removeM, if_pos hhd]
            rw [this, if_pos (by simp [hhd])]
          · rw [if_neg hin]
            have : lookupM s2.members key = lookupM s.members key := by
              show lookupM (removeM s1.members (tid, a)) key = _
              rw [lookupM_removeM, if_neg hhd, hm1]
            rw [this, if_neg (by simp [hhd, hin])]
      · intro acct
        obtain ⟨he1, hf1, hr1⟩ := hb1 acct
        rw [← hs1] at he1 hf1 hr1
        have hb2 : getBal s2.bals acct = getBal s1.bals acct := rfl
        obtain ⟨he, hf, hr⟩ := hbal acct
        rw [hb2] at he hf hr
        exact ⟨by omega, by omega, by omega⟩

theorem lookupT_mem (ts : List (Nat × TreeState)) (k : Nat) (t : TreeState)
    (h : lookupT ts k = some t) : (k, t) ∈ ts := by
  induction ts with
  | nil => cases h
  | cons kt rest ih =>
      obtain ⟨k0, t0⟩ := kt
      by_cases hk : k0 = k
      · rw [lookupT, if_pos hk] at h
        subst hk
        rw [Option.some.injEq] at h
        subst h
        exact List.mem_cons_self _ _
      · rw [lookupT, if_neg hk] at h
        exact List.mem_cons_of_mem _ (ih h)

theorem mem_lookupT (ts : List (Nat × TreeState)) (k : Nat) (t : TreeState)
    (hn : KeysNodup (skel ts)) (h : (k, t) ∈ ts) : lookupT ts k = some t := by
  induction ts with
  | nil => cases h
  | cons kt rest ih =>
      obtain ⟨k0, t0⟩ := kt
      have hn' : (k0 :: (skel rest).map SNode.key).Nodup := by
        simpa [KeysNodup, skel] using hn
      rw [List.nodup_cons] at hn'
      cases h with
      | head => rw [lookupT, if_pos rfl]
      | tail _ hmem =>
          have hk : k0 ≠ k := by
            intro he
            subst he
            have : k0 ∈ (skel rest).map SNode.key := by
              simp only [skel, List.map_map]
              exact List.mem_map_of_mem _ hmem
            exact hn'.1 this
          rw [lookupT, if_neg hk]
          exact ih hn'.2 hmem

theorem skel_node_unique (sk : List SNode) (hn : KeysNodup sk) (e e' : SNode)
    (he : e ∈ sk) (he' : e' ∈ sk) (hk : e.key = e'.key) : e = e' := by
  induction sk with
  | nil => cases he
  | cons x rest ih =>
      have hn' : (x.key :: rest.map SNode.key).Nodup := by simpa [KeysNodup] using hn
      rw [List.nodup_cons] at hn'
      cases he with
      | head =>
          cases he' with
          | head => rfl
          | tail _ hmem' =>
              exfalso
              exact hn'.1 (by rw [hk]; exact List.mem_map_of_mem SNode.key hmem')
      | tail _ hmem =>
          cases he' with
          | head =>
              exfalso
              exact hn'.1 (by rw [← hk]; exact List.mem_map_of_mem SNode.key hmem)
          | tail _ hmem' => exact ih hn'.2 hmem hmem'

theorem skel_mem_lookup (ts : List (Nat × TreeState)) (hn : KeysNodup (skel ts))
    (e : SNode) (he : e ∈ skel ts) :
    ∃ t, lookupT ts e.key = some t ∧ t.id = e.tid ∧ t.parent = e.parent ∧
      t.height = e.height := by
  obtain ⟨kt, hmem, hf⟩ := List.mem_map.mp he
  obtain ⟨k, t⟩ := kt
  obtain ⟨ek, ei, ep, eh⟩ := e
  injection hf with hk hi hp hh
  subst hk
  exact ⟨t, mem_lookupT ts k t hn hmem, hi, hp, hh⟩

theorem lookupT_skel_eq (ts : List (Nat × TreeState)) :
    ∀ (ts' : List (Nat × TreeState)), skel ts' = skel ts →
      ∀ k t, lookupT ts k = some t →
        ∃ t', lookupT ts' k = some t' ∧ t'.id = t.id ∧ t'.parent = t.parent ∧
          t'.height = t.height := by
  induction ts with
  | nil => intro ts' hs k t h; cases h
  | cons kt rest ih =>
      intro ts' hs k t h
      obtain ⟨k0, t0⟩ := kt
      cases ts' with
      | nil => simp [skel] at hs
      | cons kt' rest' =>
          obtain ⟨k0', t0'⟩ := kt'
          simp only [skel, List.map_cons] at hs
          rw [List.cons.injEq] at hs
          obtain ⟨hhead, htail0⟩ := hs
          have htail : skel rest' = skel rest := by simpa [skel] using htail0
          injection hhead with hk0 hi0 hp0 hh0
          by_cases hk : k0 = k
          · rw [lookupT, if_pos hk] at h
            rw [Option.some.injEq] at h
            subst h
            refine ⟨t0', ?_, hi0, hp0, hh0⟩
            rw [lookupT, if_pos (hk0.trans hk)]
          · rw [lookupT, if_neg hk] at h
            obtain ⟨t', hlk, hfacts⟩ := ih rest' htail k t h
            refine ⟨t', ?_, hfacts⟩
            rw [lookupT, if_neg (hk0 ▸ hk), hlk]

theorem skel_insertT_statics (ts : List (Nat × TreeState)) (k : Nat) (v t0 : TreeState)
    (h : lookupT ts k = some t0) (hid : v.id = t0.id) (hp : v.parent = t0.parent)
    (hh : v.height = t0.height) : skel (insertT ts k v) = skel ts := by
  induction ts with
  | nil => cases h
  | cons kt rest ih =>
      obtain ⟨k0, t0'⟩ := kt
      by_cases hk : k0 = k
      · rw [lookupT, if_pos hk] at h
        rw [Option.some.injEq] at h
        subst h
        subst hk
        have hins : insertT ((k0, t0') :: rest) k0 v = (k0, v) :: rest := by
          rw [insertT, if_pos rfl]
        rw [hins]
        simp only [skel, List.map_cons]
        rw [hid, hp, hh]
      · rw [lookupT, if_neg hk] at h
        have hins : insertT ((k0, t0') :: rest) k v = (k0, t0') :: insertT rest k v := by
          rw [insertT, if_neg hk]
        rw [hins]
        simp only [skel, List.map_cons]
        have := ih h
        simpa [skel] using this

theorem childrenOf_mem (ts : List (Nat × TreeState)) (id : Nat) (kc : Nat × TreeState) :
    kc ∈ childrenOf ts id ↔ kc ∈ ts ∧ kc.2.parent = some id := by
  induction ts with
  | nil => simp [childrenOf]
  | cons kt rest ih =>
      obtain ⟨k0, t0⟩ := kt
      by_cases hp : t0.parent = some id
      · simp only [childrenOf, if_pos hp]
        constructor
        · intro h
          cases h with
          | head => exact ⟨List.mem_cons_self _ _, hp⟩
          | tail _ hmem =>
              obtain ⟨hm, hpp⟩ := ih.mp hmem
              exact ⟨List.mem_cons_of_mem _ hm, hpp⟩
        · intro ⟨hm, hpp⟩
          cases hm with
          | head => exact List.mem_cons_self _ _
          | tail _ hmem => exact List.mem_cons_of_mem _ (ih.mpr ⟨hmem, hpp⟩)
      · simp only [childrenOf, if_neg hp]
        rw [ih]
        constructor
        · intro ⟨hm, hpp⟩
          exact ⟨List.mem_cons_of_mem _ hm, hpp⟩
        · intro ⟨hm, hpp⟩
          cases hm with
          | head => exact absurd hpp hp
          | tail _ hmem => exact ⟨hmem, hpp⟩

theorem childrenOf_length (ts : List (Nat × TreeState)) (id : Nat) :
    (childrenOf ts id).length = childCount (skel ts) id := by
  induction ts with
  | nil => simp [childrenOf, childCount, skel]
  | cons kt rest ih =>
      obtain ⟨k0, t0⟩ := kt
      by_cases hp : t0.parent = some id
      · simp only [childrenOf, if_pos hp, List.length_cons, ih, childCount, skel,
          List.map_cons, List.filter_cons]
        simp [hp]
      · simp only [childrenOf, if_neg hp, ih, childCount, skel, List.map_cons,
          List.filter_cons]
        simp [hp]

theorem isDesc_inv (sk : List SNode) (p d : Nat) (h : IsDesc sk p d) :
    ∃ e, e ∈ sk ∧ e.parent = some p ∧ (d = e.key ∨ IsDesc sk e.key d) := by
  induction h with
  | child e p hmem hpar => exact ⟨e, hmem, hpar, Or.inl rfl⟩
  | tail e p q hdesc hmem hpar ih =>
      obtain ⟨e0, hmem0, hpar0, hor⟩ := ih
      refine ⟨e0, hmem0, hpar0, Or.inr ?_⟩
      cases hor with
      | inl heq => exact IsDesc.child e e0.key hmem (by rw [hpar, heq])
      | inr hd => exact IsDesc.tail e e0.key q hd hmem hpar

theorem membersOf_insertM_new (l : List ((Nat × Nat) × Nat)) (tid a v : Nat)
    (h : lookupM l (tid, a) = none) :
    membersOf (insertM l (tid, a) v) tid = membersOf l tid ++ [(a, v)] := by
  induction l with
  | nil => simp [insertM, membersOf]
  | cons kb rest ih =>
      obtain ⟨⟨t', a'⟩, b⟩ := kb
      have hne : (t', a') ≠ (tid, a) := by
        intro he
        rw [lookupM, if_pos he] at h
        cases h
      have hrest : lookupM rest (tid, a) = none := by
        rw [lookupM, if_neg hne] at h
        exact h
      simp only [insertM, if_neg hne]
      by_cases ht : t' = tid
      · simp only [membersOf, if_pos ht]
        rw [ih hrest]
        simp
      · simp only [membersOf, if_neg ht]
        exact ih hrest

theorem add_mems_go_size_count (tid : Nat) (l : List Nat) :
    ∀ (s : St) (acc : Nat),
      (membersOf (add_mems_go tid l s acc).1.members tid).length + acc =
        (membersOf s.members tid).length + (add_mems_go tid l s acc).2 := by
  induction l with
  | nil => intro s acc; simp [add_mems_go]
  | cons m rest ih =>
      intro s acc
      cases hm : lookupM s.members (tid, m) with
      | some b => simpa [add_mems_go, hm] using ih s acc
      | none =>
          simp only [add_mems_go, hm]
          have hlen : (membersOf (insertM s.members (tid, m) 0) tid).length =
              (membersOf s.members tid).length + 1 := by
            rw [membersOf_insertM_new _ _ _ _ hm]
            simp
          have := ih { s with members := insertM s.members (tid, m) 0 } (acc + 1)
          simp only [] at this
          omega

theorem goKids_total (c : Cfg) (D : Nat) (sk0 : List SNode) (hforest : Forest sk0 D)
    (pid hc : Nat)
    (IH : ∀ (tree : TreeState) (s : St) (t0 : TreeState),
      skel s.trees = sk0 →
      lookupT s.trees tree.id = some t0 →
      t0.parent = tree.parent → t0.height = tree.height →
      tree.height = hc →
      ∃ s' cnt,
        (∀ fuel, D + 1 ≤ fuel + tree.height → teardown c false fuel tree s = .ok s' cnt) ∧
        skel s'.trees = skel s.trees ∧ s'.counter = s.counter ∧
        (∀ a, lookupM s'.members (tree.id, a) = none) ∧
        (∀ d, IsDesc sk0 tree.id d → ∀ a, lookupM s'.members (d, a) = none) ∧
        (∀ key, lookupM s.members key = none → lookupM s'.members key = none) ∧
        (∀ k tk, lookupT s.trees k = some tk → tk.height + 1 < tree.height →
          lookupT s'.trees k = some tk) ∧
        (∀ a, (getBal s'.bals a).free + (getBal s'.bals a).reserved =
            (getBal s.bals a).free + (getBal s.bals a).reserved ∧
          (getBal s.bals a).free ≤ (getBal s'.bals a).free ∧
          (getBal s'.bals a).reserved ≤ (getBal s.bals a).reserved) ∧
        (∀ K, KidsLe sk0 K → cnt ≤ geom K (D - tree.height))) :
    ∀ (l : List (Nat × TreeState)) (s : St),
      skel s.trees = sk0 →
      (∀ kc, kc ∈ l → kc.2.parent = some pid ∧ kc.2.height = hc ∧ kc.2.id = kc.1 ∧
        (⟨kc.1, kc.2.id, kc.2.parent, kc.2.height⟩ : SNode) ∈ sk0) →
      ∃ s' cnt,
        (∀ fuel, D + 1 ≤ fuel + hc →
          goKids (fun t u => teardown c false fuel t u) l s = .ok s' cnt) ∧
        skel s'.trees = skel s.trees ∧ s'.counter = s.counter ∧
        (∀ kc, kc ∈ l → ∀ a, lookupM s'.members (kc.2.id, a) = none) ∧
        (∀ kc, kc ∈ l → ∀ d, IsDesc sk0 kc.2.id d → ∀ a,
          lookupM s'.members (d, a) = none) ∧
        (∀ key, lookupM s.members key = none → lookupM s'.members key = none) ∧
        (∀ k tk, lookupT s.trees k = some tk → tk.height + 1 < hc →
          lookupT s'.trees k = some tk) ∧
        (∀ a, (getBal s'.bals a).free + (getBal s'.bals a).reserved =
            (getBal s.bals a).free + (getBal s.bals a).reserved ∧
          (getBal s.bals a).free ≤ (getBal s'.bals a).free ∧
          (getBal s'.bals a).reserved ≤ (getBal s.bals a).reserved) ∧
        (∀ K, KidsLe sk0 K → cnt ≤ l.length * geom K (D - hc)) := by
  intro l
  induction l with
  | nil =>
      intro s hs _hl
      refine ⟨s, 0, ?_, rfl, rfl, ?_, ?_, fun key h => h, fun k tk h _ => h,
        fun a => ⟨rfl, Nat.le_refl _, Nat.le_refl _⟩, ?_⟩
      · intro fuel _
        rfl
      · intro kc hkc
        cases hkc
      · intro kc hkc
        cases hkc
      · intro K _
        simp
  | cons kchild rest ih =>
      intro s hs hl
      obtain ⟨k, child⟩ := kchild
      obtain ⟨hpar, hht, hid, hnode⟩ := hl (k, child) (List.mem_cons_self _ _)
      have hnode' : (⟨k, child.id, child.parent, child.height⟩ : SNode) ∈ skel s.trees := by
        rw [hs]; exact hnode
      obtain ⟨t0, hlk0, hti, htp, hth⟩ :=
        skel_mem_lookup s.trees (by rw [hs]; exact hforest.2.1) _ hnode'
      have hlk : lookupT s.trees child.id = some t0 := by
        rw [hid]
        exact hlk0
      obtain ⟨s1, cnt1, hrun1, hskel1, hcnt1, hclear1, hdesc1, hmono1, hunt1, hbal1,
        hcount1⟩ := IH child s t0 hs hlk htp hth hht
      obtain ⟨s2, cnt2, hrun2, hskel2, hcnt2, hclear2, hdesc2, hmono2, hunt2, hbal2,
        hcount2⟩ := ih s1 (hskel1.trans hs)
        (fun kc hkc => hl kc (List.mem_cons_of_mem _ hkc))
      refine ⟨s2, cnt1 + cnt2, ?_, hskel2.trans hskel1, hcnt2.trans hcnt1,
        ?_, ?_, ?_, ?_, ?_, ?_⟩
      · intro fuel hf
        have h1 := hrun1 fuel (by rw [hht]; exact hf)
        have h2 := hrun2 fuel hf
        simp only [goKids, h1, h2]
      · intro kc hkc a
        cases hkc with
        | head => exact hmono2 _ (hclear1 a)
        | tail _ hmem => exact hclear2 kc hmem a
      · intro kc hkc d hd a
        cases hkc with
        | head => exact hmono2 _ (hdesc1 d hd a)
        | tail _ hmem => exact hdesc2 kc hmem d hd a
      · intro key h
        exact hmono2 key (hmono1 key h)
      · intro k' tk hlk' hlt
        exact hunt2 k' tk (hunt1 k' tk hlk' (by rw [hht]; exact hlt)) hlt
      · intro a
        obtain ⟨he1, hf1, hr1⟩ := hbal1 a
        obtain ⟨he2, hf2, hr2⟩ := hbal2 a
        exact ⟨by omega, by omega, by omega⟩
      · intro K hK
        have h1 := hcount1 K hK
        rw [hht] at h1
        have h2 := hcount2 K hK
        calc cnt1 + cnt2 ≤ geom K (D - hc) + rest.length * geom K (D - hc) :=
              Nat.add_le_add h1 h2
        _ = (rest.length + 1) * geom K (D - hc) := by ring
        _ = ((k, child) :: rest).length * geom K (D - hc) := by
              rw [List.length_cons]

theorem skel_of_lookup (ts : List (Nat × TreeState)) (k : Nat) (t : TreeState)
    (h : lookupT ts k = some t) : (⟨k, t.id, t.parent, t.height⟩ : SNode) ∈ skel ts :=
  List.mem_map_of_mem _ (lookupT_mem ts k t h)

/-- Soundness of the recursive teardown on forest-shaped states: with fuel
at least `maxDepth + 1 - height` the recursion completes (never exhausts
its fuel and, with `penalty = false`, never panics), the registry keys,
parent links and heights are all left unchanged (residual records remain),
every membership entry of the revoked tree and of each of its descendants
is removed and never re-created, the revoked tree's parent has its `kids`
decremented exactly once, no account's balance total changes while free
balance only grows, and — whenever every tree has at most `K` registry
children — the number of teardown calls is bounded by the geometric sum
`geom K (maxDepth - height)`. -/
theorem teardown_total (c : Cfg) (D : Nat) :
    ∀ (n : Nat) (tree : TreeState) (s : St) (t0 : TreeState),
      Forest (skel s.trees) D →
      lookupT s.trees tree.id = some t0 →
      t0.parent = tree.parent →
      t0.height = tree.height →
      n = D - tree.height →
      ∃ s' cnt,
        (∀ fuel, D + 1 ≤ fuel + tree.height →
          teardown c false fuel tree s = .ok s' cnt) ∧
        skel s'.trees = skel s.trees ∧ s'.counter = s.counter ∧
        (∀ a, lookupM s'.members (tree.id, a) = none) ∧
        (∀ d, IsDesc (skel s.trees) tree.id d → ∀ a,
          lookupM s'.members (d, a) = none) ∧
        (∀ key, lookupM s.members key = none → lookupM s'.members key = none) ∧
        (∀ k tk, lookupT s.trees k = some tk → tk.height + 1 < tree.height →
          lookupT s'.trees k = some tk) ∧
        (∀ p tp, tree.parent = some p → lookupT s.trees p = some tp →
          lookupT s'.trees p = some { tp with kids := sub32 tp.kids 1 }) ∧
        (∀ a, (getBal s'.bals a).free + (getBal s'.bals a).reserved =
            (getBal s.bals a).free + (getBal s.bals a).reserved ∧
          (getBal s.bals a).free ≤ (getBal s'.bals a).free ∧
          (getBal s'.bals a).reserved ≤ (getBal s.bals a).reserved) ∧
        (∀ K, KidsLe (skel s.trees) K → cnt ≤ geom K (D - tree.height)) := by
  intro n
  induction n using Nat.strong_induction_on with
  | _ n IHn =>
  intro tree s t0 hforest hlk hpar hht hn
  obtain ⟨hids, hnodup, hparents, hheights⟩ := hforest
  have hforest0 : Forest (skel s.trees) D := ⟨hids, hnodup, hparents, hheights⟩
  have hnode : (⟨tree.id, t0.id, t0.parent, t0.height⟩ : SNode) ∈ skel s.trees :=
    skel_of_lookup _ _ _ hlk
  have hhle : tree.height ≤ D := by
    have h : t0.height ≤ D := hheights _ hnode
    rw [← hht]
    exact h
  -- release every membership entry of this tree
  obtain ⟨s1, hrel, htr1, hc1, hmem1, hbal1⟩ :=
    releaseAll_false_spec tree.id (membersOf s.members tree.id) s
  have hclearS1 : ∀ a, lookupM s1.members (tree.id, a) = none := by
    intro a
    rw [hmem1]
    by_cases hin : (tree.id, a) ∈
        (membersOf s.members tree.id).map (fun ab => (tree.id, ab.1))
    · rw [if_pos hin]
    · rw [if_neg hin]
      by_contra hne
      obtain ⟨ab, hab, hfst⟩ := List.mem_map.mp (lookup_mem_membersOf _ _ _ hne)
      exact hin (List.mem_map.mpr ⟨ab, hab, by rw [hfst]⟩)
  have hmono1 : ∀ key, lookupM s.members key = none → lookupM s1.members key = none := by
    intro key h
    rw [hmem1]
    by_cases hin : key ∈ (membersOf s.members tree.id).map (fun ab => (tree.id, ab.1))
    · rw [if_pos hin]
    · rw [if_neg hin]; exact h
  -- decrement the parent's kids count
  have hstep : ∃ s2 : St,
      (∀ fuel : Nat, teardown c false (fuel + 1) tree s =
        (match goKids (fun t u => teardown c false fuel t u)
            (childrenOf s2.trees tree.id) s2 with
         | .ok s3 nn => .ok s3 (nn + 1)
         | r => r)) ∧
      skel s2.trees = skel s.trees ∧
      s2.members = s1.members ∧ s2.bals = s1.bals ∧ s2.counter = s.counter ∧
      (∀ p tp, tree.parent = some p → lookupT s.trees p = some tp →
        lookupT s2.trees p = some { tp with kids := sub32 tp.kids 1 }) ∧
      (∀ k tk, lookupT s.trees k = some tk → tk.height + 1 < tree.height →
        lookupT s2.trees k = some tk) := by
    cases hparc : tree.parent with
    | none =>
        refine ⟨s1, ?_, by rw [htr1], rfl, rfl, hc1, ?_, ?_⟩
        · intro fuel
          simp only [teardown, hrel, hparc]
        · intro p tp hpc
          cases hpc
        · intro k tk hlk' _
          rw [htr1]
          exact hlk'
    | some p =>
        have hpar0 : t0.parent = some p := by rw [hpar, hparc]
        obtain ⟨e', he', hek, heh⟩ := hparents _ hnode p hpar0
        obtain ⟨tp0, hlkp00, hpi, hpp, hph⟩ := skel_mem_lookup s.trees hnodup e' he'
        have hlkp0 : lookupT s.trees p = some tp0 := by rw [← hek]; exact hlkp00
        have heh2 : t0.height = e'.height + 1 := heh
        have hpheight : tp0.height + 1 = tree.height := by omega
        have hlkp1 : lookupT s1.trees p = some tp0 := by rw [htr1]; exact hlkp0
        refine ⟨{ s1 with trees := insertT s1.trees p ({ tp0 with kids := sub32 tp0.kids 1 }) },
          ?_, ?_, rfl, rfl, hc1, ?_, ?_⟩
        · intro fuel
          simp only [teardown, hrel, hparc, hlkp1]
        · have := skel_insertT_statics s1.trees p
            ({ tp0 with kids := sub32 tp0.kids 1 }) tp0 hlkp1 rfl rfl rfl
          show skel (insertT s1.trees p _) = skel s.trees
          rw [this, htr1]
        · intro p' tp h1 h2
          have hpp : p = p' := Option.some.inj h1
          subst hpp
          rw [hlkp0, Option.some.injEq] at h2
          subst h2
          show lookupT (insertT s1.trees p _) p = _
          exact lookupT_insertT_self _ _ _
        · intro k tk hlk' hlt
          by_cases hkp : k = p
          · exfalso
            subst hkp
            rw [hlkp0, Option.some.injEq] at hlk'
            subst hlk'
            omega
          · show lookupT (insertT s1.trees p _) k = _
            rw [lookupT_insertT_other _ _ _ _ hkp, htr1]
            exact hlk'
  obtain ⟨s2, hrun2, hskel2, hmem2, hbals2, hcnt2, hkids2, hunt2⟩ := hstep
  -- facts about the children scan
  have hlfacts : ∀ kc, kc ∈ childrenOf s2.trees tree.id →
      kc.2.parent = some tree.id ∧ kc.2.height = tree.height + 1 ∧
      kc.2.id = kc.1 ∧
      (⟨kc.1, kc.2.id, kc.2.parent, kc.2.height⟩ : SNode) ∈ skel s.trees := by
    intro kc hkc
    obtain ⟨hmemc, hparc⟩ := (childrenOf_mem _ _ _).mp hkc
    have hnodec : (⟨kc.1, kc.2.id, kc.2.parent, kc.2.height⟩ : SNode) ∈ skel s.trees := by
      rw [← hskel2]
      exact List.mem_map_of_mem _ hmemc
    have hidc : kc.2.id = kc.1 := hids _ hnodec
    obtain ⟨e', he', hek, heh⟩ := hparents _ hnodec tree.id hparc
    have he'eq : e' = ⟨tree.id, t0.id, t0.parent, t0.height⟩ :=
      skel_node_unique _ hnodup _ _ he' hnode hek
    have heh2 : kc.2.height = e'.height + 1 := heh
    have he'h : e'.height = t0.height := by rw [he'eq]
    have hhc : kc.2.height = tree.height + 1 := by omega
    exact ⟨hparc, hhc, hidc, hnodec⟩
  by_cases hD : tree.height < D
  · -- inner nodes: recurse into children
    have hm : D - (tree.height + 1) < n := by omega
    have IH' : ∀ (tree' : TreeState) (s'' : St) (t0' : TreeState),
        skel s''.trees = skel s.trees →
        lookupT s''.trees tree'.id = some t0' →
        t0'.parent = tree'.parent → t0'.height = tree'.height →
        tree'.height = tree.height + 1 →
        ∃ s' cnt,
          (∀ fuel, D + 1 ≤ fuel + tree'.height →
            teardown c false fuel tree' s'' = .ok s' cnt) ∧
          skel s'.trees = skel s''.trees ∧ s'.counter = s''.counter ∧
          (∀ a, lookupM s'.members (tree'.id, a) = none) ∧
          (∀ d, IsDesc (skel s.trees) tree'.id d → ∀ a,
            lookupM s'.members (d, a) = none) ∧
          (∀ key, lookupM s''.members key = none → lookupM s'.members key = none) ∧
          (∀ k tk, lookupT s''.trees k = some tk → tk.height + 1 < tree'.height →
            lookupT s'.trees k = some tk) ∧
          (∀ a, (getBal s'.bals a).free + (getBal s'.bals a).reserved =
              (getBal s''.bals a).free + (getBal s''.bals a).reserved ∧
            (getBal s''.bals a).free ≤ (getBal s'.bals a).free ∧
            (getBal s'.bals a).reserved ≤ (getBal s''.bals a).reserved) ∧
          (∀ K, KidsLe (skel s.trees) K → cnt ≤ geom K (D - tree'.height)) := by
      intro tree' s'' t0' hs'' hlk' hp' hh' hhc'
      have hf'' : Forest (skel s''.trees) D := by rw [hs'']; exact hforest0
      obtain ⟨s', cnt, h1, h2, h3, h4, h5, h6, h7, h8, h9, h10⟩ :=
        IHn (D - (tree.height + 1)) hm tree' s'' t0' hf'' hlk' hp' hh'
          (by rw [hhc'])
      rw [hs''] at h5 h10
      exact ⟨s', cnt, h1, h2, h3, h4, h5, h6, h7, h9, h10⟩
    obtain ⟨s3, cnt3, hrun3, hskel3, hcnt3, hclear3, hdesc3, hmono3, hunt3, hbal3,
        hcount3⟩ :=
      goKids_total c D (skel s.trees) hforest0 tree.id (tree.height + 1) IH'
        (childrenOf s2.trees tree.id) s2 hskel2 hlfacts
    refine ⟨s3, cnt3 + 1, ?_, hskel3.trans hskel2, ?_, ?_, ?_, ?_, ?_, ?_, ?_, ?_⟩
    · intro fuel hf
      cases fuel with
      | zero => omega
      | succ f =>
          rw [hrun2 f]
          rw [hrun3 f (by omega)]
    · rw [hcnt3, hcnt2]
    · intro a
      have := hclearS1 a
      rw [← hmem2] at this
      exact hmono3 _ this
    · intro d hd a
      obtain ⟨e, he, hepar, hor⟩ := isDesc_inv _ _ _ hd
      have he2 : e ∈ skel s2.trees := by rw [hskel2]; exact he
      obtain ⟨t, hlt, hti', htp', hth'⟩ :=
        skel_mem_lookup s2.trees (by rw [hskel2]; exact hnodup) e he2
      have hkc : (e.key, t) ∈ childrenOf s2.trees tree.id :=
        (childrenOf_mem _ _ _).mpr ⟨lookupT_mem _ _ _ hlt, by rw [htp', hepar]⟩
      have htid : t.id = d ∨ IsDesc (skel s.trees) t.id d := by
        rw [hti', hids e he]
        exact hor.imp (fun hh => hh.symm) id
      cases htid with
      | inl hh =>
          have := hclear3 (e.key, t) hkc a
          rw [hh] at this
          exact this
      | inr hh => exact hdesc3 (e.key, t) hkc d hh a
    · intro key h
      have h1 := hmono1 key h
      rw [← hmem2] at h1
      exact hmono3 key h1
    · intro k tk hlk' hlt
      exact hunt3 k tk (hunt2 k tk hlk' hlt) (by omega)
    · intro p tp h1 h2
      have hs2p := hkids2 p tp h1 h2
      refine hunt3 p _ hs2p ?_
      -- the parent sits one level above this tree
      have hpar0 : t0.parent = some p := by rw [hpar, h1]
      obtain ⟨e', he', hek, heh⟩ := hparents _ hnode p hpar0
      obtain ⟨tp0, hlkp00, hpi, hpp, hph⟩ := skel_mem_lookup s.trees hnodup e' he'
      have hlkp0 : lookupT s.trees p = some tp0 := by rw [← hek]; exact hlkp00
      rw [hlkp0, Option.some.injEq] at h2
      subst h2
      have heh2 : t0.height = e'.height + 1 := heh
      have hh2 : tp0.height + 1 = tree.height := by omega
      show tp0.height + 1 < tree.height + 1
      omega
    · intro a
      obtain ⟨he1, hf1, hr1⟩ := hbal1 a
      obtain ⟨he3, hf3, hr3⟩ := hbal3 a
      rw [hbals2] at he3 hf3 hr3
      exact ⟨by omega, by omega, by omega⟩
    · intro K hK
      have hlen : (childrenOf s2.trees tree.id).length =
          childCount (skel s.trees) tree.id := by
        rw [childrenOf_length, hskel2]
      have hcc : childCount (skel s.trees) tree.id ≤ K := hK _ hnode
      have h3 := hcount3 K hK
      rw [hlen] at h3
      have h4 : cnt3 ≤ K * geom K (D - (tree.height + 1)) :=
        le_trans h3 (Nat.mul_le_mul_right _ hcc)
      have hDh : D - tree.height = (D - (tree.height + 1)) + 1 := by omega
      rw [hDh, geom]
      omega
  · -- leaf level: height = MaxDepth, no children can exist
    have hDeq : tree.height = D := by omega
    have hempty : childrenOf s2.trees tree.id = [] := by
      cases hl0 : childrenOf s2.trees tree.id with
      | nil => rfl
      | cons kc rest =>
          exfalso
          have hkc : kc ∈ childrenOf s2.trees tree.id := by
            rw [hl0]; exact List.mem_cons_self _ _
          obtain ⟨_, hhc, _, hnodec⟩ := hlfacts kc hkc
          have hle2 : kc.2.height ≤ D := hheights _ hnodec
          omega
    refine ⟨s2, 1, ?_, hskel2, hcnt2, ?_, ?_, ?_, ?_, hkids2, ?_, ?_⟩
    · intro fuel hf
      cases fuel with
      | zero => omega
      | succ f =>
          rw [hrun2 f, hempty]
          rfl
    · intro a
      rw [hmem2]
      exact hclearS1 a
    · intro d hd a
      exfalso
      obtain ⟨e, he, hepar, hor⟩ := isDesc_inv _ _ _ hd
      have he2 : e ∈ skel s2.trees := by rw [hskel2]; exact he
      obtain ⟨t, hlt, hti', htp', hth'⟩ :=
        skel_mem_lookup s2.trees (by rw [hskel2]; exact hnodup) e he2
      have hkc : (e.key, t) ∈ childrenOf s2.trees tree.id :=
        (childrenOf_mem _ _ _).mpr ⟨lookupT_mem _ _ _ hlt, by rw [htp', hepar]⟩
      rw [hempty] at hkc
      cases hkc
    · intro key h
      rw [hmem2]
      exact hmono1 key h
    · intro k tk hlk' hlt
      exact hunt2 k tk hlk' hlt
    · intro a
      obtain ⟨he1, hf1, hr1⟩ := hbal1 a
      rw [← hbals2] at he1 hf1 hr1
      exact ⟨he1, hf1, hr1⟩
    · intro K _
      rw [hDeq]
      simp [geom]

theorem lookupT_eq_none_iff (ts : List (Nat × TreeState)) (k : Nat) :
    lookupT ts k = none ↔ k ∉ ts.map Prod.fst := by
  induction ts with
  | nil => simp [lookupT]
  | cons kt rest ih =>
      obtain ⟨k0, t0⟩ := kt
      by_cases hk : k0 = k
      · subst hk
        simp [lookupT, ih]
      · simp only [lookupT, if_neg hk, List.map_cons, List.mem_cons, ih]
        constructor
        · intro h hc
          cases hc with
          | inl he => exact hk he.symm
          | inr he => exact h he
        · intro h he
          exact h (Or.inr he)

theorem insertT_fresh_append (ts : List (Nat × TreeState)) (k : Nat) (v : TreeState)
    (h : lookupT ts k = none) : insertT ts k v = ts ++ [(k, v)] := by
  induction ts with
  | nil => rfl
  | cons kt rest ih =>
      obtain ⟨k0, t0⟩ := kt
      have hk : k0 ≠ k := by
        intro he
        rw [lookupT, if_pos he] at h
        cases h
      rw [lookupT, if_neg hk] at h
      simp only [insertT, if_neg hk, List.cons_append, List.cons.injEq, true_and]
      exact ih h

theorem lookupT_append_left (ts l : List (Nat × TreeState)) (k : Nat) (t : TreeState)
    (h : lookupT ts k = some t) : lookupT (ts ++ l) k = some t := by
  induction ts with
  | nil => cases h
  | cons kt rest ih =>
      obtain ⟨k0, t0⟩ := kt
      by_cases hk : k0 = k
      · rw [lookupT, if_pos hk] at h
        rw [List.cons_append, lookupT, if_pos hk]
        exact h
      · rw [lookupT, if_neg hk] at h
        rw [List.cons_append, lookupT, if_neg hk]
        exact ih h

theorem skel_append (ts l : List (Nat × TreeState)) :
    skel (ts ++ l) = skel ts ++ skel l := by
  simp [skel]

/-- Appending a fresh, well-linked node preserves the forest shape. -/
theorem forest_append_node (sk : List SNode) (d : Nat) (n : SNode)
    (hf : Forest sk d) (hid : n.tid = n.key) (hfresh : n.key ∉ sk.map SNode.key)
    (hpar : ∀ p, n.parent = some p →
      ∃ e', e' ∈ sk ∧ e'.key = p ∧ n.height = e'.height + 1)
    (hh : n.height ≤ d) : Forest (sk ++ [n]) d := by
  obtain ⟨hids, hnodup, hparents, hheights⟩ := hf
  refine ⟨?_, ?_, ?_, ?_⟩
  · intro e he
    cases List.mem_append.mp he with
    | inl h0 => exact hids e h0
    | inr h0 =>
        rw [List.mem_singleton.mp h0]
        exact hid
  · show ((sk ++ [n]).map SNode.key).Nodup
    rw [List.map_append]
    rw [List.nodup_append]
    refine ⟨hnodup, List.nodup_singleton _, ?_⟩
    intro x hx hx'
    rw [List.map_singleton, List.mem_singleton] at hx'
    subst hx'
    exact hfresh hx
  · intro e he p hp
    cases List.mem_append.mp he with
    | inl h0 =>
        obtain ⟨e', he', hek, heh⟩ := hparents e h0 p hp
        exact ⟨e', List.mem_append.mpr (Or.inl he'), hek, heh⟩
    | inr h0 =>
        rw [List.mem_singleton.mp h0] at hp ⊢
        obtain ⟨e', he', hek, heh⟩ := hpar p hp
        exact ⟨e', List.mem_append.mpr (Or.inl he'), hek, heh⟩
  · intro e he
    cases List.mem_append.mp he with
    | inl h0 => exact hheights e h0
    | inr h0 =>
        rw [List.mem_singleton.mp h0]
        exact hh

theorem gen_uid_go_free (ts : List (Nat × TreeState)) :
    ∀ (fuel c0 : Nat), (∃ i, i < fuel ∧ lookupT ts (c0 + i) = none) →
      lookupT ts (gen_uid_go fuel c0 ts) = none := by
  intro fuel
  induction fuel with
  | zero =>
      intro c0 h
      obtain ⟨i, hi, -⟩ := h
      omega
  | succ f ih =>
      intro c0 h
      cases hc : lookupT ts c0 with
      | none => simp only [gen_uid_go, hc]
      | some t =>
          simp only [gen_uid_go, hc]
          obtain ⟨i, hi, hnone⟩ := h
          cases i with
          | zero =>
              rw [Nat.add_zero] at hnone
              rw [hnone] at hc
              cases hc
          | succ j =>
              refine ih (c0 + 1) ⟨j, by omega, ?_⟩
              have : c0 + 1 + j = c0 + (j + 1) := by omega
              rw [this]
              exact hnone

theorem exists_free_id (ts : List (Nat × TreeState)) (c0 : Nat) :
    ∃ i, i < ts.length + 1 ∧ lookupT ts (c0 + i) = none := by
  by_contra hno
  push_neg at hno
  have hmem : ∀ i ∈ Finset.range (ts.length + 1),
      c0 + i ∈ (ts.map Prod.fst).toFinset := by
    intro i hi
    rw [Finset.mem_range] at hi
    have := hno i hi
    rw [List.mem_toFinset]
    by_contra hnotin
    exact this ((lookupT_eq_none_iff ts (c0 + i)).mpr hnotin)
  have hinj : ∀ i ∈ Finset.range (ts.length + 1), ∀ j ∈ Finset.range (ts.length + 1),
      c0 + i = c0 + j → i = j := by
    intro i _ j _ h
    omega
  have hcard := Finset.card_le_card_of_injOn _ hmem hinj
  rw [Finset.card_range] at hcard
  have hle : (ts.map Prod.fst).toFinset.card ≤ ts.length := by
    calc (ts.map Prod.fst).toFinset.card ≤ (ts.map Prod.fst).length :=
          List.toFinset_card_le _
    _ = ts.length := List.length_map _ _
  omega

/-- The id scan of `gen_uid` always lands on an unoccupied id. -/
theorem gen_uid_fresh (s : St) : lookupT s.trees (gen_uid s) = none := by
  exact gen_uid_go_free s.trees (s.trees.length + 1) s.counter
    (exists_free_id s.trees s.counter)

theorem remove_mems_none_eq (c : Cfg) (fuel : Nat) (tree : TreeState) (penalty : Bool)
    (s : St) (hf : 1 ≤ fuel) :
    remove_mems c fuel tree none penalty s = teardown c penalty fuel tree s := by
  cases fuel with
  | zero => omega
  | succ f => rfl

theorem remove_mems_some_eq (c : Cfg) (fuel : Nat) (tree : TreeState) (mems : List Nat)
    (penalty : Bool) (s : St) (hf : 1 ≤ fuel) :
    (removeList tree.id tree.bonded penalty (dedup mems) s 0 = none →
      remove_mems c fuel tree (some mems) penalty s = .panicked) ∧
    (∀ s1 dec, removeList tree.id tree.bonded penalty (dedup mems) s 0 = some (s1, dec) →
      remove_mems c fuel tree (some mems) penalty s =
        .ok { s1 with
            trees := insertT s1.trees tree.id ({ tree with size := sub32 tree.size dec }) } 1) := by
  cases fuel with
  | zero => omega
  | succ f =>
      constructor
      · intro h
        show (match removeList tree.id tree.bonded penalty (dedup mems) s 0 with
          | none => RmRes.panicked
          | some (s1, dec) =>
              RmRes.ok { s1 with
                trees := insertT s1.trees tree.id ({ tree with size := sub32 tree.size dec }) } 1) = _
        rw [h]
      · intro s1 dec h
        show (match removeList tree.id tree.bonded penalty (dedup mems) s 0 with
          | none => RmRes.panicked
          | some (s1, dec) =>
              RmRes.ok { s1 with
                trees := insertT s1.trees tree.id ({ tree with size := sub32 tree.size dec }) } 1) = _
        rw [h]

theorem removeList_trees (tid bonded : Nat) (penalty : Bool) :
    ∀ (l : List Nat) (s : St) (dec : Nat) (s1 : St) (dec' : Nat),
      removeList tid bonded penalty l s dec = some (s1, dec') →
      s1.trees = s.trees ∧ s1.counter = s.counter := by
  intro l
  induction l with
  | nil =>
      intro s dec s1 dec' h
      rw [removeList] at h
      rw [Option.some.injEq] at h
      rw [← (Prod.mk.inj h).1]
      exact ⟨rfl, rfl⟩
  | cons m rest ih =>
      intro s dec s1 dec' h
      cases hm : lookupM s.members (tid, m) with
      | none =>
          simp only [removeList, hm] at h
          exact ih s dec s1 dec' h
      | some bond =>
          simp only [removeList, hm] at h
          by_cases hb : bonded ≠ m
          · rw [if_pos hb] at h
            cases hp : penalty with
            | true => subst hp; rw [if_pos rfl] at h; cases h
            | false =>
                subst hp
                rw [if_neg Bool.false_ne_true] at h
                obtain ⟨htr, hcnt⟩ := ih _ _ _ _ h
                rw [htr, hcnt]
                exact ⟨rfl, rfl⟩
          · rw [if_neg hb] at h
            exact ih s dec s1 dec' h

theorem releaseAll_some_trees (tid : Nat) (penalty : Bool) :
    ∀ (l : List (Nat × Nat)) (s s1 : St),
      releaseAll tid penalty l s = some s1 →
      s1.trees = s.trees ∧ s1.counter = s.counter := by
  intro l
  induction l with
  | nil =>
      intro s s1 h
      rw [releaseAll, Option.some.injEq] at h
      rw [← h]
      exact ⟨rfl, rfl⟩
  | cons ab rest ih =>
      intro s s1 h
      obtain ⟨a, b⟩ := ab
      simp only [releaseAll] at h
      cases hp : penalty with
      | true => subst hp; rw [if_pos rfl] at h; cases h
      | false =>
          subst hp
          rw [if_neg Bool.false_ne_true] at h
          obtain ⟨htr, hcnt⟩ := ih _ _ h
          rw [htr, hcnt]
          exact ⟨rfl, rfl⟩

theorem goKids_ok_skel (f : TreeState → St → RmRes)
    (hf : ∀ tree s s' n, f tree s = .ok s' n →
      skel s'.trees = skel s.trees ∧ s'.counter = s.counter) :
    ∀ (l : List (Nat × TreeState)) (s s' : St) (n : Nat),
      goKids f l s = .ok s' n →
      skel s'.trees = skel s.trees ∧ s'.counter = s.counter := by
  intro l
  induction l with
  | nil =>
      intro s s' n h
      rw [goKids] at h
      injection h with h1 h2
      rw [← h1]
      exact ⟨rfl, rfl⟩
  | cons kc rest ih =>
      intro s s' n h
      obtain ⟨k, child⟩ := kc
      cases h1 : f child s with
      | ok s1 n1 =>
          cases h2 : goKids f rest s1 with
          | ok s2 n2 =>
              simp only [goKids, h1, h2] at h
              injection h with hs hn
              subst hs
              obtain ⟨ha, hb⟩ := hf child s s1 n1 h1
              obtain ⟨hc, hd⟩ := ih s1 s2 n2 h2
              exact ⟨hc.trans ha, hd.trans hb⟩
          | panicked => simp only [goKids, h1, h2] at h; cases h
          | fuelOut => simp only [goKids, h1, h2] at h; cases h
      | panicked => simp only [goKids, h1] at h; cases h
      | fuelOut => simp only [goKids, h1] at h; cases h

/-- Any normally-completing teardown run (any penalty flag, any fuel)
preserves the registry skeleton and the id counter. -/
theorem teardown_ok_skel (c : Cfg) (penalty : Bool) :
    ∀ (fuel : Nat) (tree : TreeState) (s s' : St) (n : Nat),
      teardown c penalty fuel tree s = .ok s' n →
      skel s'.trees = skel s.trees ∧ s'.counter = s.counter := by
  intro fuel
  induction fuel with
  | zero =>
      intro tree s s' n h
      cases h
  | succ f ih =>
      intro tree s s' n h
      cases hrel : releaseAll tree.id penalty (membersOf s.members tree.id) s with
      | none => simp only [teardown, hrel] at h; cases h
      | some s1 =>
          simp only [teardown, hrel] at h
          obtain ⟨htr1, hc1⟩ := releaseAll_some_trees _ _ _ _ _ hrel
          cases hpc : tree.parent with
          | none =>
              rw [hpc] at h
              simp only [] at h
              cases hgk : goKids (fun t u => teardown c penalty f t u)
                  (childrenOf s1.trees tree.id) s1 with
              | ok s3 n3 =>
                  simp only [hgk] at h
                  injection h with hs hn
                  subst hs
                  obtain ⟨ha, hb⟩ := goKids_ok_skel _
                    (fun t u u' m hh => ih t u u' m hh) _ _ _ _ hgk
                  refine ⟨?_, ?_⟩
                  · rw [ha, htr1]
                  · rw [hb, hc1]
              | panicked => simp only [hgk] at h; cases h
              | fuelOut => simp only [hgk] at h; cases h
          | some p =>
              rw [hpc] at h
              simp only [] at h
              cases hlp : lookupT s1.trees p with
              | none =>
                  rw [hlp] at h
                  simp only [] at h
                  cases hgk : goKids (fun t u => teardown c penalty f t u)
                      (childrenOf s1.trees tree.id) s1 with
                  | ok s3 n3 =>
                      simp only [hgk] at h
                      injection h with hs hn
                      subst hs
                      obtain ⟨ha, hb⟩ := goKids_ok_skel _
                        (fun t u u' m hh => ih t u u' m hh) _ _ _ _ hgk
                      refine ⟨?_, ?_⟩
                      · rw [ha, htr1]
                      · rw [hb, hc1]
                  | panicked => simp only [hgk] at h; cases h
                  | fuelOut => simp only [hgk] at h; cases h
              | some tp =>
                  rw [hlp] at h
                  simp only [] at h
                  set ts2 : List (Nat × TreeState) :=
                    insertT s1.trees p ({ tp with kids := sub32 tp.kids 1 }) with hts2
                  have hskel2 : skel ts2 = skel s.trees := by
                    rw [hts2]
                    have := skel_insertT_statics s1.trees p
                      ({ tp with kids := sub32 tp.kids 1 }) tp hlp rfl rfl rfl
                    rw [this, htr1]
                  cases hgk : goKids (fun t u => teardown c penalty f t u)
                      (childrenOf ts2 tree.id) { s1 with trees := ts2 } with
                  | ok s3 n3 =>
                      simp only [hgk] at h
                      injection h with hs hn
                      subst hs
                      obtain ⟨ha, hb⟩ := goKids_ok_skel _
                        (fun t u u' m hh => ih t u u' m hh) _ _ _ _ hgk
                      refine ⟨?_, ?_⟩
                      · rw [ha]
                        exact hskel2
                      · rw [hb, hc1]
                  | panicked => simp only [hgk] at h; cases h
                  | fuelOut => simp only [hgk] at h; cases h

theorem skel_keys (ts : List (Nat × TreeState)) :
    (skel ts).map SNode.key = ts.map Prod.fst := by
  simp [skel, List.map_map]

theorem skel_insertT_size (ts : List (Nat × TreeState)) (k : Nat) (t0 : TreeState)
    (w : Nat) (h : lookupT ts k = some t0) :
    skel (insertT ts k ({ t0 with size := w })) = skel ts :=
  skel_insertT_statics ts k _ t0 h rfl rfl rfl

theorem skel_insertT_kids (ts : List (Nat × TreeState)) (k : Nat) (t0 : TreeState)
    (w : Nat) (h : lookupT ts k = some t0) :
    skel (insertT ts k ({ t0 with kids := w })) = skel ts :=
  skel_insertT_statics ts k _ t0 h rfl rfl rfl

theorem skel_insertT_fresh (ts : List (Nat × TreeState)) (k : Nat) (v : TreeState)
    (h : lookupT ts k = none) :
    skel (insertT ts k v) = skel ts ++ [⟨k, v.id, v.parent, v.height⟩] := by
  rw [insertT_fresh_append _ _ _ h, skel_append]
  rfl

theorem reserve_exponential_bond_parts (c : Cfg) (tree account height kids : Nat)
    (s : St) (bd : Nat) (s1 : St)
    (h : reserve_exponential_bond c tree account height kids s = some (bd, s1)) :
    s1.trees = s.trees ∧ s1.counter = s.counter := by
  rw [reserve_exponential_bond] at h
  cases hres : reserve account (power c.bond (wrap32 (height + kids))) s with
  | none => rw [hres] at h; cases h
  | some sr =>
      rw [hres] at h
      obtain ⟨-, htr, hcnt⟩ := reserve_parts _ _ _ _ hres
      injection h with h'
      injection h' with hbd hs1
      rw [← hs1]
      exact ⟨htr, hcnt⟩

theorem reserve_linear_bond_parts (c : Cfg) (tree account new_size : Nat)
    (s : St) (bd : Nat) (s1 : St)
    (h : reserve_linear_bond c tree account new_size s = some (bd, s1)) :
    s1.trees = s.trees ∧ s1.counter = s.counter := by
  rw [reserve_linear_bond] at h
  cases hres : reserve account (mul64 c.bond new_size) s with
  | none => rw [hres] at h; cases h
  | some sr =>
      rw [hres] at h
      obtain ⟨-, htr, hcnt⟩ := reserve_parts _ _ _ _ hres
      injection h with h'
      injection h' with hbd hs1
      rw [← hs1]
      exact ⟨htr, hcnt⟩

theorem add_mems_trees (tree : TreeState) (ms : List Nat) (s : St) :
    (add_mems tree ms s).trees =
      insertT s.trees tree.id
        ({ tree with size := wrap32 (tree.size + (add_mems_go tree.id (dedup ms) s 0).2) }) ∧
    (add_mems tree ms s).counter = s.counter := by
  obtain ⟨htr, -, hcnt⟩ := add_mems_go_trees tree.id (dedup ms) s 0
  constructor
  · show insertT (add_mems_go tree.id (dedup ms) s 0).1.trees tree.id _ = _
    rw [htr]
  · show (add_mems_go tree.id (dedup ms) s 0).1.counter = s.counter
    exact hcnt

theorem create_root_skel (c : Cfg) (caller : Nat) (s s' : St)
    (h : create_root c caller s = .ok s') :
    ∃ id, lookupT s.trees id = none ∧
      skel s'.trees = skel s.trees ++ [⟨id, id, none, 0⟩] ∧
      s'.counter = s.counter := by
  rw [create_root] at h
  cases hres : reserve caller c.bond s with
  | none => rw [hres] at h; cases h
  | some s1 =>
      rw [hres] at h
      obtain ⟨-, htr, hcnt⟩ := reserve_parts _ _ _ _ hres
      have hfresh : lookupT s.trees (gen_uid s1) = none := by
        rw [← htr]
        exact gen_uid_fresh s1
      refine ⟨gen_uid s1, hfresh, ?_, ?_⟩
      · have hs' := (OpRes.ok.inj h).symm
        rw [hs']
        show skel (insertT s1.trees (gen_uid s1) _) = _
        rw [htr, insertT_fresh_append _ _ _ hfresh, skel_append]
        rfl
      · have hs' := (OpRes.ok.inj h).symm
        rw [hs']
        show s1.counter = s.counter
        exact hcnt

theorem delegate_skel (c : Cfg) (caller pid : Nat) (mems : List Nat) (s s' : St)
    (h : delegate c caller pid mems s = .ok s') :
    ∃ id pt, lookupT s.trees pid = some pt ∧ lookupT s.trees id = none ∧
      wrap32 (pt.height + 1) ≤ c.maxDepth ∧
      skel s'.trees = skel s.trees ++ [⟨id, id, some pt.id, wrap32 (pt.height + 1)⟩] ∧
      s'.counter = s.counter := by
  cases hm : lookupM s.members (pid, caller) with
  | none => simp only [delegate, hm] at h; simp at h
  | some b =>
      cases ht : lookupT s.trees pid with
      | none => simp only [delegate, hm, ht] at h; simp at h
      | some pt =>
          simp only [delegate, hm, ht] at h
          by_cases h1 : wrap32 (pt.kids + 1) ≤ c.maxKids
          · by_cases h2 : wrap32 (pt.height + 1) ≤ c.maxDepth
            · simp only [if_pos h1, if_pos h2] at h
              cases hr : reserve_exponential_bond c pid caller
                  (wrap32 (pt.height + 1)) (wrap32 (pt.kids + 1)) s with
              | none => simp only [hr] at h; simp at h
              | some pr =>
                  obtain ⟨bd, s1⟩ := pr
                  simp only [hr] at h
                  obtain ⟨htr1, hcnt1⟩ := reserve_exponential_bond_parts _ _ _ _ _ _ _ _ hr
                  have hfresh1 : lookupT s1.trees (gen_uid s1) = none := gen_uid_fresh s1
                  have hfresh : lookupT s.trees (gen_uid s1) = none := by
                    rw [← htr1]; exact hfresh1
                  obtain ⟨htr2, hcnt2⟩ := add_mems_trees
                    ⟨gen_uid s1, some pt.id, caller, wrap32 (pt.height + 1), 0, 0⟩ mems s1
                  have hs' := (OpRes.ok.inj h).symm
                  have hne : pid ≠ gen_uid s1 := by
                    intro he
                    rw [he, hfresh] at ht
                    cases ht
                  have hlk2 : lookupT (add_mems
                      ⟨gen_uid s1, some pt.id, caller, wrap32 (pt.height + 1), 0, 0⟩
                      mems s1).trees pid = some pt := by
                    rw [htr2]
                    have h3 : lookupT s1.trees pid = some pt := by
                      rw [htr1]; exact ht
                    exact (lookupT_insertT_other s1.trees (gen_uid s1) pid _ hne).trans h3
                  refine ⟨gen_uid s1, pt, rfl, hfresh, h2, ?_, ?_⟩
                  · rw [hs']
                    show skel (insertT (add_mems
                      ⟨gen_uid s1, some pt.id, caller, wrap32 (pt.height + 1), 0, 0⟩
                      mems s1).trees pid _) = _
                    rw [skel_insertT_kids _ _ pt _ hlk2]
                    rw [htr2, htr1]
                    exact skel_insertT_fresh s.trees (gen_uid s1) _ hfresh
                  · rw [hs']
                    show (add_mems
                      ⟨gen_uid s1, some pt.id, caller, wrap32 (pt.height + 1), 0, 0⟩
                      mems s1).counter = s.counter
                    rw [hcnt2, hcnt1]
            · simp only [if_pos h1, if_neg h2] at h; simp at h
          · simp only [if_neg h1] at h; simp at h

theorem add_members_skel (c : Cfg) (caller tid : Nat) (mems : List Nat) (s s' : St)
    (hids : IdsOk (skel s.trees))
    (h : add_members c caller tid mems s = .ok s') :
    skel s'.trees = skel s.trees ∧ s'.counter = s.counter := by
  cases ht : lookupT s.trees tid with
  | none => simp only [add_members, ht] at h; simp at h
  | some tree =>
      simp only [add_members, ht] at h
      by_cases ha : parentAuth caller tree s
      · by_cases h1 : wrap32 (wrap32 (dedup mems).length + tree.size) ≤ c.maxSize
        · simp only [if_pos ha, if_pos h1] at h
          cases hr : reserve_linear_bond c tid caller
              (wrap32 (wrap32 (dedup mems).length + tree.size)) s with
          | none => simp only [hr] at h; simp at h
          | some pr =>
              obtain ⟨bd, s1⟩ := pr
              simp only [hr] at h
              obtain ⟨htr1, hcnt1⟩ := reserve_linear_bond_parts _ _ _ _ _ _ _ hr
              have hid : tree.id = tid := hids _ (skel_of_lookup _ _ _ ht)
              have hlk1 : lookupT s1.trees tree.id = some tree := by
                rw [htr1, hid]; exact ht
              obtain ⟨htr2, hcnt2⟩ := add_mems_trees tree (dedup mems) s1
              have hs' := (OpRes.ok.inj h).symm
              constructor
              · rw [hs', htr2]
                rw [skel_insertT_size _ _ tree _ hlk1, htr1]
              · rw [hs', hcnt2, hcnt1]
        · simp only [if_pos ha, if_neg h1] at h; simp at h
      · simp only [if_neg ha] at h; simp at h

theorem remove_members_skel (c : Cfg) (caller tid : Nat) (mems : List Nat)
    (penalty : Bool) (s s' : St) (hids : IdsOk (skel s.trees))
    (h : remove_members c caller tid mems penalty s = .ok s') :
    skel s'.trees = skel s.trees ∧ s'.counter = s.counter := by
  cases ht : lookupT s.trees tid with
  | none => simp only [remove_members, ht] at h; simp at h
  | some tree =>
      simp only [remove_members, ht] at h
      by_cases ha : parentAuth caller tree s
      · rw [if_pos ha] at h
        have hfuel : 1 ≤ teardownFuel c s := by
          show 1 ≤ s.trees.length + c.maxDepth + 2; omega
        cases hrl : removeList tree.id tree.bonded penalty (dedup mems) s 0 with
        | none =>
            have := (remove_mems_some_eq c (teardownFuel c s) tree mems penalty s hfuel).1 hrl
            rw [this] at h
            cases h
        | some pr =>
            obtain ⟨sx, dec⟩ := pr
            have heq := (remove_mems_some_eq c (teardownFuel c s) tree mems penalty s
              hfuel).2 sx dec hrl
            rw [heq] at h
            have hs' := (OpRes.ok.inj h).symm
            obtain ⟨htrx, hcntx⟩ := removeList_trees _ _ _ _ _ _ _ _ hrl
            have hid : tree.id = tid := hids _ (skel_of_lookup _ _ _ ht)
            have hlkx : lookupT sx.trees tree.id = some tree := by
              rw [htrx, hid]; exact ht
            constructor
            · rw [hs']
              show skel (insertT sx.trees tree.id _) = _
              rw [skel_insertT_size _ _ tree _ hlkx, htrx]
            · rw [hs']
              show sx.counter = s.counter
              exact hcntx
      · rw [if_neg ha] at h
        cases h

theorem revoke_ok_elim (c : Cfg) (caller tid : Nat) (penalty : Bool) (s s' : St)
    (h : revoke c caller tid penalty s = .ok s') :
    ∃ tree cnt, lookupT s.trees tid = some tree ∧ tree.bonded = caller ∧
      remove_mems c (teardownFuel c s) tree none penalty s = .ok s' cnt := by
  cases ht : lookupT s.trees tid with
  | none => simp only [revoke, ht] at h; cases h
  | some tree =>
      simp only [revoke, ht] at h
      by_cases hb : tree.bonded = caller
      · rw [if_pos hb] at h
        cases hr : remove_mems c (teardownFuel c s) tree none penalty s with
        | ok s1 n =>
            rw [hr] at h
            refine ⟨tree, n, rfl, hb, ?_⟩
            rw [hr, (OpRes.ok.inj h)]
        | panicked => rw [hr] at h; cases h
        | fuelOut => rw [hr] at h; cases h
      · rw [if_neg hb] at h
        cases h

theorem dedupFrom_idem (l : List Nat) : ∀ p, dedupFrom p (dedupFrom p l) = dedupFrom p l := by
  induction l with
  | nil => intro p; rfl
  | cons x rest ih =>
      intro p
      by_cases hx : x = p
      · simp only [dedupFrom, if_pos hx]
        exact ih p
      · simp only [dedupFrom, if_neg hx]
        rw [ih x]

theorem dedup_idem (l : List Nat) : dedup (dedup l) = dedup l := by
  cases l with
  | nil => rfl
  | cons x rest =>
      simp only [dedup]
      rw [dedupFrom_idem]

theorem add_mems_members_eq (tree : TreeState) (mems : List Nat) (s : St) :
    (add_mems tree (dedup mems) s).members =
      (add_mems_go tree.id (dedup mems) s 0).1.members := by
  simp [add_mems, dedup_idem]

theorem revoke_skel (c : Cfg) (caller tid : Nat) (penalty : Bool) (s s' : St)
    (h : revoke c caller tid penalty s = .ok s') :
    skel s'.trees = skel s.trees ∧ s'.counter = s.counter := by
  obtain ⟨tree, cnt, ht, hb, hrm⟩ := revoke_ok_elim c caller tid penalty s s' h
  have hf : 1 ≤ teardownFuel c s := by
    show 1 ≤ s.trees.length + c.maxDepth + 2
    omega
  rw [remove_mems_none_eq c _ tree penalty s hf] at hrm
  exact teardown_ok_skel c penalty _ tree s s' cnt hrm

/-- Every reachable state's registry is forest-shaped with heights bounded
by `MaxDepth`, provided `MaxDepth + 1` does not overflow a `u32` (so the
wrapping `parent.height + 1` computed by `delegate` is exact). -/
theorem reachable_forest (c : Cfg) (hD : c.maxDepth + 1 < W32) :
    ∀ s, Reachable c s → Forest (skel s.trees) c.maxDepth := by
  intro s hreach
  induction hreach with
  | init bals =>
      refine ⟨?_, ?_, ?_, ?_⟩
      · intro e he; simp [skel] at he
      · simp [skel, KeysNodup]
      · intro e he; simp [skel] at he
      · intro e he; simp [skel] at he
  | step t t' hr hstep ih =>
      cases hstep with
      | create caller sa sb hop =>
          obtain ⟨id, hfresh, hskel, -⟩ := create_root_skel c caller _ _ hop
          rw [hskel]
          refine forest_append_node _ _ _ ih rfl ?_ ?_ ?_
          · rw [skel_keys]
            exact (lookupT_eq_none_iff _ _).mp hfresh
          · intro p hp
            cases hp
          · exact Nat.zero_le _
      | deleg caller pid mems sa sb hop =>
          obtain ⟨id, pt, ht, hfresh, hdep, hskel, -⟩ := delegate_skel c caller pid mems _ _ hop
          rw [hskel]
          obtain ⟨hids, hnodup, hparents, hheights⟩ := ih
          refine forest_append_node _ _ _ ⟨hids, hnodup, hparents, hheights⟩ rfl ?_ ?_ ?_
          · rw [skel_keys]
            exact (lookupT_eq_none_iff _ _).mp hfresh
          · intro p hp
            have hnode := skel_of_lookup t.trees pid pt ht
            have hkey : pt.id = pid := hids _ hnode
            have hple : pt.height ≤ c.maxDepth := hheights _ hnode
            refine ⟨⟨pid, pt.id, pt.parent, pt.height⟩, hnode, ?_, ?_⟩
            · show pid = p
              rw [← Option.some.inj hp, hkey]
            · show wrap32 (pt.height + 1) = pt.height + 1
              exact Nat.mod_eq_of_lt (by omega)
          · exact hdep
      | addm caller tid mems sa sb hop =>
          obtain ⟨hskel, -⟩ := add_members_skel c caller tid mems _ _ ih.1 hop
          rw [hskel]
          exact ih
      | remm caller tid mems penalty sa sb hop =>
          obtain ⟨hskel, -⟩ := remove_members_skel c caller tid mems penalty _ _ ih.1 hop
          rw [hskel]
          exact ih
      | rev caller tid penalty sa sb hop =>
          obtain ⟨hskel, -⟩ := revoke_skel c caller tid penalty _ _ hop
          rw [hskel]
          exact ih

/-- C4 (supporting theorem): the exponentiation closure of
`reserve_exponential_bond` computes `Bond ^ (height + kids)` reduced
modulo `2^64` — the u64 multiplications wrap silently in release builds
rather than being checked or saturating.  With `Bond = 2` the examples of
the spec hold (4, 8, 16), but already `Bond = 2^32` with
`height + kids = 2` silently yields a bond of `0` instead of a reported
overflow failure. -/
theorem power_wraps_silently :
    (∀ b e, b < W64 → power b e = b ^ e % W64) ∧
    power 2 2 = 4 ∧ power 2 3 = 8 ∧ power 2 4 = 16 ∧
    power (2 ^ 32) 2 = 0 ∧ ((2 : Nat) ^ 32) ^ 2 ≠ 0 := by
  refine ⟨?_, by decide, by decide, by decide, by decide, by decide⟩
  have key : ∀ (b : Nat) (e : Nat) (acc : Nat), acc < W64 →
      (List.replicate e b).foldl (fun a x => mul64 a x) acc = acc * b ^ e % W64 := by
    intro b e
    induction e with
    | zero =>
        intro acc hacc
        simp [Nat.mod_eq_of_lt hacc]
    | succ n ih =>
        intro acc hacc
        have h1 : List.replicate (n + 1) b = b :: List.replicate n b := rfl
        rw [h1, List.foldl_cons, ih (mul64 acc b) (Nat.mod_lt _ (by decide))]
        show acc * b % W64 * b ^ n % W64 = acc * b ^ (n + 1) % W64
        rw [Nat.mod_mul_mod]
        congr 1
        ring
  intro b e hb
  have := key b e 1 (by decide)
  simpa [power, Nat.one_mul] using this

/-- C4 witness: instantiation of the general formula at `Bond = 2`,
`exp = 5`. -/
theorem power_wraps_silently_witness : 2 < W64 ∧ power 2 5 = 2 ^ 5 % W64 :=
  ⟨by decide, power_wraps_silently.1 2 5 (by decide)⟩

/-- C7: both `penalty = true` paths reach the `todo!()` of the source and
panic as soon as one member's bond is actually released: revoking a root
whose owner holds the only membership entry, and removing a present
non-owner member with `penalty = true`. -/
theorem penalty_paths_panic :
    revoke cfg2 1 0 true exA1 = .panicked ∧
    remove_members cfg2 1 0 [2] true exG1 = .panicked := by
  exact ⟨rfl, rfl⟩

/-- C8: a reachable state violating the `kids ≤ MaxKids` invariant.  After
`create_root`, `delegate`, and a first `revoke` of the child, the child's
registry record remains; a second `revoke` of the residual child
decrements the root's `kids` count from 0, wrapping to `2^32 - 1`,
which exceeds `MaxKids = 2` (in a debug build the subtraction panics
instead). -/
theorem double_revoke_kids_overflow :
    create_root cfg2 1 st0 = .ok exA1 ∧
    delegate cfg2 1 0 [] exA1 = .ok exD2 ∧
    revoke cfg2 1 1 false exD2 = .ok exH3 ∧
    revoke cfg2 1 1 false exH3 = .ok exH4 ∧
    (lookupT exH4.trees 0).map TreeState.kids = some 4294967295 ∧
    ¬ (4294967295 ≤ cfg2.maxKids) := by
  exact ⟨rfl, rfl, rfl, rfl, rfl, by decide⟩

/-- C10: `delegate` checks the caller's membership of the parent before
checking the parent tree's existence, so when both are absent the error is
`NotAuthorized`, not `TreeDNE`; and `TreeDNE` is returned only when a
membership entry for (parent, caller) exists while the parent tree does
not. -/
theorem delegate_check_order :
    (∀ (c : Cfg) (caller pid : Nat) (mems : List Nat) (s : St),
        lookupM s.members (pid, caller) = none →
        lookupT s.trees pid = none →
        delegate c caller pid mems s = .fail .NotAuthorized s) ∧
    (∀ (c : Cfg) (caller pid : Nat) (mems : List Nat) (s : St) (s' : St),
        delegate c caller pid mems s = .fail .TreeDNE s' →
        lookupM s.members (pid, caller) ≠ none ∧ lookupT s.trees pid = none) := by
  constructor
  · intro c caller pid mems s hm _ht
    simp [delegate, hm]
  · intro c caller pid mems s s' h
    cases hm : lookupM s.members (pid, caller) with
    | none => simp only [delegate, hm] at h; simp at h
    | some b =>
        cases ht : lookupT s.trees pid with
        | none => exact ⟨by simp [hm], rfl⟩
        | some pt =>
            simp only [delegate, hm, ht] at h
            by_cases h1 : wrap32 (pt.kids + 1) ≤ c.maxKids
            · by_cases h2 : wrap32 (pt.height + 1) ≤ c.maxDepth
              · simp only [if_pos h1, if_pos h2] at h
                cases hr : reserve_exponential_bond c pid caller
                    (wrap32 (pt.height + 1)) (wrap32 (pt.kids + 1)) s with
                | none => simp only [hr] at h; simp at h
                | some pr =>
                    obtain ⟨bd, s1⟩ := pr
                    simp only [hr] at h; simp at h
              · simp only [if_pos h1, if_neg h2] at h; simp at h
            · simp only [if_neg h1] at h; simp at h

/-- C10 witness: with no membership entry and no tree, `delegate` fails
`NotAuthorized`; in `stD` the entry (7, 1) exists without tree 7 and
`delegate` fails `TreeDNE`. -/
theorem delegate_check_order_witness :
    delegate cfg2 1 5 [] st0 = .fail .NotAuthorized st0 ∧
    (lookupM stD.members (7, 1) ≠ none ∧ lookupT stD.trees 7 = none) :=
  ⟨delegate_check_order.1 cfg2 1 5 [] st0 rfl rfl,
   delegate_check_order.2 cfg2 1 7 [] stD stD rfl⟩

/-- C1 counterexample: after `create_root cfg2 1 st0` and
`delegate cfg2 1 0 [2] exA1` (exponential bond 4), the new child tree is
tree 1, yet the child's membership entry for the caller does not exist —
the bond was accumulated into the *parent* tree's entry (0, 1), which
holds 2 + 4 = 6. -/
theorem delegate_bond_not_in_child :
    delegate cfg2 1 0 [2] exA1 = .ok exA2 ∧
    lookupT exA2.trees 1 = some ⟨1, some 0, 1, 1, 0, 1⟩ ∧
    lookupM exA2.members (1, 1) = none ∧
    lookupM exA2.members (0, 1) = some 6 := by
  exact ⟨rfl, rfl, rfl, rfl⟩

/-- Core teardown specification, stated for any forest-shaped state (the
claim theorem below derives the forest shape from reachability). -/
theorem revoke_teardown_spec_forest (c : Cfg) (caller tid : Nat) (s s' : St)
    (hforest : Forest (skel s.trees) c.maxDepth)
    (h : revoke c caller tid false s = .ok s') :
    skel s'.trees = skel s.trees ∧
    (lookupT s'.trees tid).isSome = true ∧
    ∃ tree, lookupT s.trees tid = some tree ∧ tree.bonded = caller ∧
      (∀ a, lookupM s'.members (tid, a) = none) ∧
      (∀ d a, IsDesc (skel s.trees) tid d → lookupM s'.members (d, a) = none) ∧
      (∀ p tp, tree.parent = some p → lookupT s.trees p = some tp →
        lookupT s'.trees p = some { tp with kids := sub32 tp.kids 1 }) ∧
      (∀ a, (getBal s'.bals a).free + (getBal s'.bals a).reserved =
          (getBal s.bals a).free + (getBal s.bals a).reserved ∧
        (getBal s.bals a).free ≤ (getBal s'.bals a).free ∧
        (getBal s'.bals a).reserved ≤ (getBal s.bals a).reserved) := by
  obtain ⟨tree, cnt, hlk, hb, hrm⟩ := revoke_ok_elim c caller tid false s s' h
  have hnode : (⟨tid, tree.id, tree.parent, tree.height⟩ : SNode) ∈ skel s.trees :=
    skel_of_lookup _ _ _ hlk
  have hid : tree.id = tid := hforest.1 _ hnode
  have hlk' : lookupT s.trees tree.id = some tree := by rw [hid]; exact hlk
  obtain ⟨s'', cnt', hrun, hskel, hcnt, hclear, hdesc, hmono, hunt, hkids, hbal,
      hcount⟩ :=
    teardown_total c c.maxDepth (c.maxDepth - tree.height) tree s tree hforest
      hlk' rfl rfl rfl
  have hteq : remove_mems c (teardownFuel c s) tree none false s =
      teardown c false (teardownFuel c s) tree s :=
    remove_mems_none_eq c _ tree false s
      (by show 1 ≤ s.trees.length + c.maxDepth + 2; omega)
  have hrun' := hrun (teardownFuel c s)
    (by show c.maxDepth + 1 ≤ s.trees.length + c.maxDepth + 2 + tree.height; omega)
  rw [hteq, hrun'] at hrm
  injection hrm with hs hcnteq
  subst hs
  refine ⟨hskel, ?_, tree, hlk, hb, ?_, ?_, hkids, hbal⟩
  · obtain ⟨t', hlt', -⟩ := skel_mem_lookup s''.trees (by rw [hskel]; exact hforest.2.1)
      _ (by rw [hskel]; exact hnode)
    have : lookupT s''.trees tid = some t' := hlt'
    rw [this]
    rfl
  · intro a
    have := hclear a
    rw [hid] at this
    exact this
  · intro d a hd
    have := hdesc d (by rw [hid]; exact hd) a
    exact this

/-- C2 (amended): in every reachable state (with `MaxDepth + 1` not
overflowing a u32), every successful `revoke(caller, tree_id,
penalty=false)` releases every member's bond for the revoked tree and for
each of its descendants (no account's free+reserved total changes, free
balances only grow and reserved balances only shrink), removes every
Membership Ledger entry of the revoked tree and of all its descendants,
and decrements the parent's kids count by one — but it does NOT destroy
the Tree Registry entries: the registry's key set, parent links and
heights are unchanged, so the revoked tree and all its descendants remain
as residual records (the counterexample `revoke_leaves_registry_entry`
refutes the claim's "no Tree Registry entry remains"). -/
theorem revoke_teardown_spec (c : Cfg) (caller tid : Nat) (s s' : St)
    (hD : c.maxDepth + 1 < W32) (hreach : Reachable c s)
    (h : revoke c caller tid false s = .ok s') :
    skel s'.trees = skel s.trees ∧
    (lookupT s'.trees tid).isSome = true ∧
    ∃ tree, lookupT s.trees tid = some tree ∧ tree.bonded = caller ∧
      (∀ a, lookupM s'.members (tid, a) = none) ∧
      (∀ d a, IsDesc (skel s.trees) tid d → lookupM s'.members (d, a) = none) ∧
      (∀ p tp, tree.parent = some p → lookupT s.trees p = some tp →
        lookupT s'.trees p = some { tp with kids := sub32 tp.kids 1 }) ∧
      (∀ a, (getBal s'.bals a).free + (getBal s'.bals a).reserved =
          (getBal s.bals a).free + (getBal s.bals a).reserved ∧
        (getBal s.bals a).free ≤ (getBal s'.bals a).free ∧
        (getBal s'.bals a).reserved ≤ (getBal s.bals a).reserved) :=
  revoke_teardown_spec_forest c caller tid s s'
    (reachable_forest c hD s hreach) h

/-- C2 witness: the concrete root revocation `revoke cfg2 1 0 false exA1`
on the reachable state `exA1` (genesis followed by one `create_root`):
the skeleton survives and the revoked root's registry entry is still
present. -/
theorem revoke_teardown_spec_witness :
    skel exB2.trees = skel exA1.trees ∧ (lookupT exB2.trees 0).isSome = true := by
  have hreach : Reachable cfg2 exA1 :=
    Reachable.step st0 exA1 (Reachable.init [(1, ⟨1000, 0⟩)])
      (Step.create 1 st0 exA1 rfl)
  have h := revoke_teardown_spec cfg2 1 0 exA1 exB2 (by decide) hreach rfl
  exact ⟨h.1, h.2.1⟩

/-- Core teardown call-count bound, stated for any forest-shaped state
(the claim theorem below derives the forest shape from reachability). -/
theorem revoke_teardown_call_bound_forest (c : Cfg) (caller tid : Nat) (s s' : St)
    (hforest : Forest (skel s.trees) c.maxDepth)
    (h : revoke c caller tid false s = .ok s') :
    ∃ tree cnt, lookupT s.trees tid = some tree ∧
      remove_mems c (teardownFuel c s) tree none false s = .ok s' cnt ∧
      (∀ fuel, c.maxDepth + 1 ≤ fuel + tree.height →
        teardown c false fuel tree s = .ok s' cnt) ∧
      (∀ K, KidsLe (skel s.trees) K → cnt ≤ geom K (c.maxDepth - tree.height)) := by
  obtain ⟨tree, cnt, hlk, hb, hrm⟩ := revoke_ok_elim c caller tid false s s' h
  have hnode : (⟨tid, tree.id, tree.parent, tree.height⟩ : SNode) ∈ skel s.trees :=
    skel_of_lookup _ _ _ hlk
  have hid : tree.id = tid := hforest.1 _ hnode
  have hlk' : lookupT s.trees tree.id = some tree := by rw [hid]; exact hlk
  obtain ⟨s'', cnt', hrun, hskel, hcnt, hclear, hdesc, hmono, hunt, hkids, hbal,
      hcount⟩ :=
    teardown_total c c.maxDepth (c.maxDepth - tree.height) tree s tree hforest
      hlk' rfl rfl rfl
  have hteq : remove_mems c (teardownFuel c s) tree none false s =
      teardown c false (teardownFuel c s) tree s :=
    remove_mems_none_eq c _ tree false s
      (by show 1 ≤ s.trees.length + c.maxDepth + 2; omega)
  have hrun' := hrun (teardownFuel c s)
    (by show c.maxDepth + 1 ≤ s.trees.length + c.maxDepth + 2 + tree.height; omega)
  have hrm' := hrm
  rw [hteq, hrun'] at hrm'
  injection hrm' with hs hcnteq
  subst hs
  subst hcnteq
  exact ⟨tree, cnt', hlk, hrm, hrun, hcount⟩

/-- C3 (amended): in every reachable state (with `MaxDepth + 1` not
overflowing a u32) — such states are always forest-shaped with heights
bounded by `MaxDepth` — the recursive teardown triggered by one top-level
revoke terminates, and a recursion-depth budget of `MaxDepth + 1` levels
suffices (the recursion descends only through strictly increasing
heights, so its depth below the revoked tree is at most
`MaxDepth - height ≤ MaxDepth`).  The branching factor at each level is
the number of registry children of the current node — which residual
records can push above `MaxKids` — and whenever every tree has at most
`K` registry children the total number of teardown calls is bounded by
the geometric sum `geom K MaxDepth = 1 + K + ... + K^MaxDepth`, not by
`MaxKids ^ MaxDepth` (refuted by
`teardown_calls_exceed_claimed_bound`). -/
theorem revoke_teardown_call_bound (c : Cfg) (caller tid : Nat) (s s' : St)
    (hD : c.maxDepth + 1 < W32) (hreach : Reachable c s)
    (h : revoke c caller tid false s = .ok s') :
    ∃ tree cnt, lookupT s.trees tid = some tree ∧
      remove_mems c (teardownFuel c s) tree none false s = .ok s' cnt ∧
      (∀ fuel, c.maxDepth + 1 ≤ fuel + tree.height →
        teardown c false fuel tree s = .ok s' cnt) ∧
      (∀ K, KidsLe (skel s.trees) K → cnt ≤ geom K (c.maxDepth - tree.height)) :=
  revoke_teardown_call_bound_forest c caller tid s s'
    (reachable_forest c hD s hreach) h

/-- C3 witness: the two-tree forest `exK2` under `cfgK`
(`MaxDepth = MaxKids = 1`), reachable by genesis → `create_root` →
`delegate`: revoking root 0 performs `cnt` teardown calls with
`cnt ≤ geom 1 1 = 2`. -/
theorem revoke_teardown_call_bound_witness :
    ∃ tree cnt, lookupT exK2.trees 0 = some tree ∧
      remove_mems cfgK (teardownFuel cfgK exK2) tree none false exK2 = .ok exK3 cnt ∧
      (∀ fuel, cfgK.maxDepth + 1 ≤ fuel + tree.height →
        teardown cfgK false fuel tree exK2 = .ok exK3 cnt) ∧
      (∀ K, KidsLe (skel exK2.trees) K → cnt ≤ geom K (cfgK.maxDepth - tree.height)) := by
  have hreach : Reachable cfgK exK2 :=
    Reachable.step exK1 exK2
      (Reachable.step st0 exK1 (Reachable.init [(1, ⟨1000, 0⟩)])
        (Step.create 1 st0 exK1 rfl))
      (Step.deleg 1 0 [] exK1 exK2 rfl)
  exact revoke_teardown_call_bound cfgK 1 0 exK2 exK3 (by decide) hreach rfl

/-- C1 (amended): for every successful
`delegate(caller, parent, members)`, the exponential bond
`Bond ^ (new_height + new_kids)` is reserved from the caller and recorded
against the *parent* tree's membership entry for the caller — which
exists, since the caller had to be a member of the parent — accumulating
with the previous amount there.  (The counterexample
`delegate_bond_not_in_child` shows the entry keyed by the new child's id
is not created for the caller.) -/
theorem delegate_bond_recorded_at_parent (c : Cfg) (caller pid : Nat)
    (mems : List Nat) (s s' : St) (h : delegate c caller pid mems s = .ok s') :
    ∃ old pt, lookupM s.members (pid, caller) = some old ∧
      lookupT s.trees pid = some pt ∧
      lookupM s'.members (pid, caller) =
        some (add64 old
          (power c.bond (wrap32 (wrap32 (pt.height + 1) + wrap32 (pt.kids + 1))))) := by
  cases hm : lookupM s.members (pid, caller) with
  | none => simp only [delegate, hm] at h; simp at h
  | some old =>
      cases ht : lookupT s.trees pid with
      | none => simp only [delegate, hm, ht] at h; simp at h
      | some pt =>
          refine ⟨old, pt, rfl, rfl, ?_⟩
          simp only [delegate, hm, ht] at h
          by_cases h1 : wrap32 (pt.kids + 1) ≤ c.maxKids
          · by_cases h2 : wrap32 (pt.height + 1) ≤ c.maxDepth
            · simp only [if_pos h1, if_pos h2] at h
              cases hr : reserve_exponential_bond c pid caller
                  (wrap32 (pt.height + 1)) (wrap32 (pt.kids + 1)) s with
              | none => simp only [hr] at h; simp at h
              | some pr =>
                  obtain ⟨bd, s1⟩ := pr
                  simp only [hr] at h
                  -- dissect the reservation helper
                  rw [reserve_exponential_bond] at hr
                  cases hres : reserve caller
                      (power c.bond (wrap32 (wrap32 (pt.height + 1) + wrap32 (pt.kids + 1)))) s with
                  | none => rw [hres] at hr; cases hr
                  | some sr =>
                      rw [hres] at hr
                      obtain ⟨hmem, -, -⟩ := reserve_parts _ _ _ _ hres
                      have hb : lookupM sr.members (pid, caller) = some old := by
                        rw [hmem, hm]
                      injection hr with hr'
                      injection hr' with hbd hs1
                      have hs1m : lookupM s1.members (pid, caller) =
                          some (add64 old
                            (power c.bond (wrap32 (wrap32 (pt.height + 1) + wrap32 (pt.kids + 1))))) := by
                        rw [← hs1]
                        simp only [hb]
                        exact lookupM_insertM_self _ _ _
                      have hs2 : lookupM (add_mems
                          ⟨gen_uid s1, some pt.id, caller, wrap32 (pt.height + 1), 0, 0⟩
                          mems s1).members (pid, caller) =
                          some (add64 old
                            (power c.bond (wrap32 (wrap32 (pt.height + 1) + wrap32 (pt.kids + 1))))) :=
                        add_mems_preserves _ _ _ _ _ hs1m
                      have hok := (OpRes.ok.inj h).symm
                      rw [hok]
                      simpa using hs2
            · simp only [if_pos h1, if_neg h2] at h; simp at h
          · simp only [if_neg h1] at h; simp at h

/-- C1 witness: the concrete delegation `delegate cfg2 1 0 [2] exA1`
(bond 4) yields entry (0, 1) = 2 + 4. -/
theorem delegate_bond_recorded_at_parent_witness :
    ∃ old pt, lookupM exA1.members (0, 1) = some old ∧
      lookupT exA1.trees 0 = some pt ∧
      lookupM exA2.members (0, 1) =
        some (add64 old
          (power cfg2.bond (wrap32 (wrap32 (pt.height + 1) + wrap32 (pt.kids + 1))))) :=
  delegate_bond_recorded_at_parent cfg2 1 0 [2] exA1 exA2 rfl

/-- C2 counterexample: revoking root tree 0 releases its bonds and clears
its membership but leaves the Tree Registry entry for tree 0 in place,
contradicting the claim that no registry entry for the revoked tree
remains. -/
theorem revoke_leaves_registry_entry :
    revoke cfg2 1 0 false exA1 = .ok exB2 ∧
    (lookupT exB2.trees 0).isSome = true := by
  exact ⟨rfl, rfl⟩

/-- C3 counterexample: with `MaxKids = MaxDepth = 1`, a reachable
two-tree forest (root 0 with one child) satisfies every per-tree bound,
yet revoking the root performs 2 teardown calls while
`MaxKids ^ MaxDepth = 1`. -/
theorem teardown_calls_exceed_claimed_bound :
    create_root cfgK 1 st0 = .ok exK1 ∧
    delegate cfgK 1 0 [] exK1 = .ok exK2 ∧
    lookupT exK2.trees 0 = some ⟨0, none, 1, 0, 1, 1⟩ ∧
    remove_mems cfgK (teardownFuel cfgK exK2) ⟨0, none, 1, 0, 1, 1⟩ none false exK2 =
      .ok exK3 2 ∧
    revoke cfgK 1 0 false exK2 = .ok exK3 ∧
    ¬ (2 ≤ cfgK.maxKids ^ cfgK.maxDepth) := by
  exact ⟨rfl, rfl, rfl, rfl, rfl, by decide⟩

/-- C6 (amended): the member-insertion routine `add_mems` keeps the size
field in step with the Membership Ledger: it increments `size` by exactly
the number of new entries it inserts for the tree.  The global claim
fails only because the bond-reservation helpers create or update the
caller's ledger entry without touching `size` (see the counterexample
`size_field_mismatch`). -/
theorem add_mems_size_tracks_entries (tree : TreeState) (mems : List Nat) (s : St) :
    ∃ k, lookupT (add_mems tree mems s).trees tree.id =
        some { tree with size := wrap32 (tree.size + k) } ∧
      (membersOf (add_mems tree mems s).members tree.id).length =
        (membersOf s.members tree.id).length + k := by
  refine ⟨(add_mems_go tree.id (dedup mems) s 0).2, ?_, ?_⟩
  · simp only [add_mems]
    exact lookupT_insertT_self _ _ _
  · simp only [add_mems]
    have := add_mems_go_size_count tree.id (dedup mems) s 0
    omega

/-- C6 counterexample: a reachable state in which tree 1 stores
`size = 1` while two distinct accounts (1 and 2) hold membership entries
for tree 1: `add_members` on the empty child tree 1 by the authorized
caller 1 creates the caller's bond entry without counting it in `size`. -/
theorem size_field_mismatch :
    add_members cfg2 1 1 [2] exD2 = .ok exD3 ∧
    (lookupT exD3.trees 1).map TreeState.size = some 1 ∧
    (membersOf exD3.members 1).map Prod.fst = [1, 2] ∧
    (1 : Nat) ≠ 2 := by
  exact ⟨rfl, rfl, rfl, by decide⟩

/-- C5: every failing `delegate` or `add_members` call leaves the state —
Tree Registry, Membership Ledger and balances — exactly as it was (all
validation precedes any reservation or mutation); delegating from a
parent at `height = MaxDepth` fails with `CannotDelegateBelowMaxDepth`
(state untouched), while from a parent at `height = MaxDepth - 1` with
the kids check passing, `delegate` never fails with that error. -/
theorem validation_precedes_mutation :
    (∀ (c : Cfg) (caller pid : Nat) (mems : List Nat) (s : St) (e : Err) (s' : St),
        delegate c caller pid mems s = .fail e s' → s' = s) ∧
    (∀ (c : Cfg) (caller tid : Nat) (mems : List Nat) (s : St) (e : Err) (s' : St),
        add_members c caller tid mems s = .fail e s' → s' = s) ∧
    (∀ (c : Cfg) (caller pid : Nat) (mems : List Nat) (s : St) (b : Nat) (pt : TreeState),
        lookupM s.members (pid, caller) = some b →
        lookupT s.trees pid = some pt →
        pt.height = c.maxDepth →
        c.maxDepth + 1 < W32 →
        wrap32 (pt.kids + 1) ≤ c.maxKids →
        delegate c caller pid mems s = .fail .CannotDelegateBelowMaxDepth s) ∧
    (∀ (c : Cfg) (caller pid : Nat) (mems : List Nat) (s : St) (pt : TreeState),
        lookupT s.trees pid = some pt →
        pt.height + 1 = c.maxDepth →
        c.maxDepth < W32 →
        ∀ (e : Err) (s' : St), delegate c caller pid mems s = .fail e s' →
          e ≠ .CannotDelegateBelowMaxDepth) := by
  refine ⟨?_, ?_, ?_, ?_⟩
  · intro c caller pid mems s e s' h
    cases hm : lookupM s.members (pid, caller) with
    | none =>
        simp only [delegate, hm] at h
        exact (OpRes.fail.inj h).2.symm
    | some b =>
        cases ht : lookupT s.trees pid with
        | none =>
            simp only [delegate, hm, ht] at h
            exact (OpRes.fail.inj h).2.symm
        | some pt =>
            simp only [delegate, hm, ht] at h
            by_cases h1 : wrap32 (pt.kids + 1) ≤ c.maxKids
            · by_cases h2 : wrap32 (pt.height + 1) ≤ c.maxDepth
              · simp only [if_pos h1, if_pos h2] at h
                cases hr : reserve_exponential_bond c pid caller
                    (wrap32 (pt.height + 1)) (wrap32 (pt.kids + 1)) s with
                | none =>
                    simp only [hr] at h
                    exact (OpRes.fail.inj h).2.symm
                | some pr =>
                    obtain ⟨bd, s1⟩ := pr
                    simp only [hr] at h
                    simp at h
              · simp only [if_pos h1, if_neg h2] at h
                exact (OpRes.fail.inj h).2.symm
            · simp only [if_neg h1] at h
              exact (OpRes.fail.inj h).2.symm
  · intro c caller tid mems s e s' h
    cases ht : lookupT s.trees tid with
    | none =>
        simp only [add_members, ht] at h
        exact (OpRes.fail.inj h).2.symm
    | some tree =>
        simp only [add_members, ht] at h
        by_cases ha : parentAuth caller tree s
        · by_cases h1 : wrap32 (wrap32 (dedup mems).length + tree.size) ≤ c.maxSize
          · simp only [if_pos ha, if_pos h1] at h
            cases hr : reserve_linear_bond c tid caller
                (wrap32 (wrap32 (dedup mems).length + tree.size)) s with
            | none =>
                simp only [hr] at h
                exact (OpRes.fail.inj h).2.symm
            | some pr =>
                obtain ⟨bd, s1⟩ := pr
                simp only [hr] at h
                simp at h
          · simp only [if_pos ha, if_neg h1] at h
            exact (OpRes.fail.inj h).2.symm
        · simp only [if_neg ha] at h
          exact (OpRes.fail.inj h).2.symm
  · intro c caller pid mems s b pt hm ht hh hlt hk
    have hnh : wrap32 (pt.height + 1) = c.maxDepth + 1 := by
      rw [hh]
      exact Nat.mod_eq_of_lt hlt
    have hgt : ¬ (wrap32 (pt.height + 1) ≤ c.maxDepth) := by
      rw [hnh]; omega
    simp only [delegate, hm, ht, if_pos hk, if_neg hgt]
  · intro c caller pid mems s pt ht hh hlt e s' h
    cases hm : lookupM s.members (pid, caller) with
    | none =>
        simp only [delegate, hm] at h
        rw [← (OpRes.fail.inj h).1]
        simp
    | some b =>
        simp only [delegate, hm, ht] at h
        by_cases h1 : wrap32 (pt.kids + 1) ≤ c.maxKids
        · have hle : wrap32 (pt.height + 1) ≤ c.maxDepth := by
            rw [hh]
            exact Nat.le_of_eq (Nat.mod_eq_of_lt hlt)
          simp only [if_pos h1, if_pos hle] at h
          cases hr : reserve_exponential_bond c pid caller
              (wrap32 (pt.height + 1)) (wrap32 (pt.kids + 1)) s with
          | none =>
              simp only [hr] at h
              rw [← (OpRes.fail.inj h).1]
              simp
          | some pr =>
              obtain ⟨bd, s1⟩ := pr
              simp only [hr] at h
              simp at h
        · simp only [if_neg h1] at h
          rw [← (OpRes.fail.inj h).1]
          simp

/-- C5 witness: concrete failing calls returning the input state, the
depth-boundary rejection on `exK2m` (parent tree 1 at
`height = MaxDepth = 1`), and a `delegate` from a parent at
`height = MaxDepth - 1` in `exM2` failing only for funding, not depth. -/
theorem validation_precedes_mutation_witness :
    st0 = st0 ∧
    delegate cfgK 1 1 [] exK2m = .fail .CannotDelegateBelowMaxDepth exK2m ∧
    Err.InsufficientBalance ≠ Err.CannotDelegateBelowMaxDepth := by
  refine ⟨?_, ?_, ?_⟩
  · exact validation_precedes_mutation.1 cfg2 1 5 [] st0 .NotAuthorized st0 rfl
  · exact validation_precedes_mutation.2.2.1 cfgK 1 1 [] exK2m 0 ⟨1, some 0, 1, 1, 0, 1⟩
      rfl rfl rfl (by decide) (by decide)
  · exact validation_precedes_mutation.2.2.2 cfgM 1 1 [] exM2 ⟨1, some 0, 1, 1, 0, 1⟩
      rfl rfl (by decide) .InsufficientBalance exM2 rfl

/-- C9 (amended): `add_members` removes only *consecutive* duplicates from
`members` (Rust `Vec::dedup`) and computes
`new_size = tree.size + length-after-consecutive-dedup`; given existence
and authorization, the call is rejected with `CannotAddGroupAboveMaxSize`
iff that `new_size` exceeds `MaxSize`; on success the linear bond
`Bond * new_size` is reserved from the caller and accumulated into the
caller's own entry for the tree (created if absent), each listed member
other than the caller that had no entry is inserted with a zero balance,
already-present members keep their balance, and `size` grows only by the
count of genuinely new insertions. -/
theorem add_members_spec (c : Cfg) (caller tid : Nat) (mems : List Nat) (s : St)
    (tree : TreeState)
    (htree : lookupT s.trees tid = some tree)
    (hid : tree.id = tid)
    (hauth : parentAuth caller tree s = true) :
    (add_members c caller tid mems s = .fail .CannotAddGroupAboveMaxSize s ↔
      c.maxSize < wrap32 (wrap32 (dedup mems).length + tree.size)) ∧
    (∀ s', add_members c caller tid mems s = .ok s' →
      wrap32 (wrap32 (dedup mems).length + tree.size) ≤ c.maxSize ∧
      ∃ bond s1,
        bond = mul64 c.bond (wrap32 (wrap32 (dedup mems).length + tree.size)) ∧
        reserve_linear_bond c tid caller
          (wrap32 (wrap32 (dedup mems).length + tree.size)) s = some (bond, s1) ∧
        s' = add_mems tree (dedup mems) s1 ∧
        lookupM s'.members (tid, caller) =
          some ((lookupM s.members (tid, caller)).elim bond (fun old => add64 old bond)) ∧
        (∀ m b, m ≠ caller → lookupM s.members (tid, m) = some b →
          lookupM s'.members (tid, m) = some b) ∧
        (∀ m, m ∈ dedup mems → m ≠ caller → lookupM s.members (tid, m) = none →
          lookupM s'.members (tid, m) = some 0) ∧
        ∃ k, k ≤ (dedup mems).length ∧
          lookupT s'.trees tid = some { tree with size := wrap32 (tree.size + k) }) := by
  constructor
  · constructor
    · intro h
      by_cases h1 : wrap32 (wrap32 (dedup mems).length + tree.size) ≤ c.maxSize
      · exfalso
        simp only [add_members, htree, if_pos hauth, if_pos h1] at h
        cases hr : reserve_linear_bond c tid caller
            (wrap32 (wrap32 (dedup mems).length + tree.size)) s with
        | none =>
            simp only [hr] at h
            exact absurd (OpRes.fail.inj h).1 (by simp)
        | some pr =>
            obtain ⟨bd, s1⟩ := pr
            simp only [hr] at h
            simp at h
      · exact Nat.lt_of_not_le h1
    · intro hlt
      have h1 : ¬ (wrap32 (wrap32 (dedup mems).length + tree.size) ≤ c.maxSize) :=
        Nat.not_le_of_lt hlt
      simp only [add_members, htree, if_pos hauth, if_neg h1]
  · intro s' h
    by_cases h1 : wrap32 (wrap32 (dedup mems).length + tree.size) ≤ c.maxSize
    · refine ⟨h1, ?_⟩
      simp only [add_members, htree, if_pos hauth, if_pos h1] at h
      cases hr : reserve_linear_bond c tid caller
          (wrap32 (wrap32 (dedup mems).length + tree.size)) s with
      | none => simp only [hr] at h; simp at h
      | some pr =>
          obtain ⟨bd, s1⟩ := pr
          simp only [hr] at h
          have hs' : s' = add_mems tree (dedup mems) s1 := ((OpRes.ok.inj h)).symm
          -- dissect the reservation helper
          have hr0 := hr
          rw [reserve_linear_bond] at hr
          cases hres : reserve caller
              (mul64 c.bond (wrap32 (wrap32 (dedup mems).length + tree.size))) s with
          | none => rw [hres] at hr; cases hr
          | some sr =>
              rw [hres] at hr
              obtain ⟨hmem, -, -⟩ := reserve_parts _ _ _ _ hres
              injection hr with hr'
              injection hr' with hbd hs1
              refine ⟨bd, s1, hbd.symm, ?_, hs', ?_, ?_, ?_, ?_⟩
              · rfl
              · -- caller's accumulated entry
                have hcall1 : lookupM s1.members (tid, caller) =
                    some ((lookupM s.members (tid, caller)).elim bd
                      (fun old => add64 old bd)) := by
                  rw [← hs1]
                  simp only []
                  rw [hmem, ← hbd]
                  cases hc : lookupM s.members (tid, caller) with
                  | none => simpa [hc] using lookupM_insertM_self _ _ _
                  | some old => simpa [hc] using lookupM_insertM_self _ _ _
                rw [hs']
                rw [← hbd]
                have := add_mems_preserves tree (dedup mems) s1 (tid, caller) _ hcall1
                rw [this]
                rw [hbd]
              · -- present members keep their balance
                intro m b hmne hb
                have h1m : lookupM s1.members (tid, m) = some b := by
                  rw [← hs1]
                  simp only []
                  rw [lookupM_insertM_other, hmem]
                  · exact hb
                  · intro hh
                    exact hmne (Prod.mk.inj hh).2
                rw [hs']
                exact add_mems_preserves _ _ _ _ _ h1m
              · -- absent listed members are inserted with a zero balance
                intro m hmm hmne habs
                have h1m : lookupM s1.members (tid, m) = none := by
                  rw [← hs1]
                  simp only []
                  rw [lookupM_insertM_other, hmem]
                  · exact habs
                  · intro hh
                    exact hmne (Prod.mk.inj hh).2
                rw [hs', add_mems_members_eq, hid]
                exact add_mems_go_inserts_zero _ _ _ _ _ hmm h1m
              · -- size grows by the number of genuine insertions
                refine ⟨(add_mems_go tree.id (dedup mems) s1 0).2, ?_, ?_⟩
                · simpa using add_mems_go_count_le tree.id (dedup mems) s1 0
                · rw [hs']
                  simp only [add_mems, dedup_idem]
                  rw [← hid]
                  exact lookupT_insertT_self _ _ _
    · simp only [add_members, htree, if_pos hauth, if_neg h1] at h
      simp at h

/-- C9 witness: the successful v2-test call
`add_members cfg2 1 0 [2,3,4,5] exA1` (new size 5, bond 10): the caller's
root entry accumulates 2 + 10 = 12. -/
theorem add_members_spec_witness :
    lookupM exG2.members (0, 1) =
      some ((lookupM exA1.members (0, 1)).elim (mul64 cfg2.bond 5)
        (fun old => add64 old (mul64 cfg2.bond 5))) := by
  have h := (add_members_spec cfg2 1 0 [2, 3, 4, 5] exA1
      ⟨0, none, 1, 0, 0, 1⟩ rfl rfl rfl).2 exG2 rfl
  obtain ⟨-, bond, s1, hbond, -, -, hcaller, -⟩ := h
  have hb : bond = mul64 cfg2.bond 5 := by rw [hbond]; rfl
  rw [← hb]
  exact hcaller

/-- C9 counterexample: `members` is deduplicated only of *consecutive*
duplicates (Rust `Vec::dedup`), not of all duplicates.  The list
[2,3,4,5,2] names 4 distinct accounts, so under the claim
`new_size = 1 + 4 = 5 ≤ MaxSize` and the call must not be rejected; the
code counts 5 list entries, computes `new_size = 6 > 5` and rejects with
`CannotAddGroupAboveMaxSize`. -/
theorem add_members_dedup_is_consecutive_only :
    add_members cfg2 1 0 [2, 3, 4, 5, 2] exA1 = .fail .CannotAddGroupAboveMaxSize exA1 ∧
    (lookupT exA1.trees 0).map TreeState.size = some 1 ∧
    ([2, 3, 4, 5, 2] : List Nat).toFinset.card = 4 ∧
    1 + 4 ≤ cfg2.maxSize := by
  refine ⟨rfl, rfl, by decide, by decide⟩

end Deleg8
